import Mathlib

/-!
Verification of the EBM (Explainable Boosting Machine) core numerical routines
from `interpret-core` (files `glassbox/ebm/ebm.py` and `glassbox/ebm/utils.py`).

All machine floats are modelled as exact rationals (`ℚ`); Python `None` is
modelled as `Option`; numpy tensors are modelled as `List ℚ` (flat, row-major)
or as functions over multi-indices where the source manipulates
multi-dimensional slices.  Fallible code returns `Except String`.
-/

namespace EBM

/-! ## Seed normalization (utils.py, `EBMUtils.normalize_initial_random_seed`) -/

/-- `EBMUtils.normalize_initial_random_seed` (utils.py 939-958).  In the two
branches taken, the Python `%` is applied to non-negative operands with a
positive modulus, where it agrees with `Int.emod` (the Lean `%`). -/
def normalize_initial_random_seed (seed : ℤ) : ℤ :=
  if 2147483647 ≤ seed then seed % 2147483647
  else if seed ≤ -2147483647 then -((-seed) % 2147483647)
  else seed

/-! ## Privacy parameter validation (utils.py `DPUtils.validate_eps_delta`,
ebm.py `BaseEBM.fit` privacy prelude) -/

/-- `DPUtils.validate_eps_delta` (utils.py 1335-1338): raises `ValueError`
when `eps is None or eps <= 0 or delta is None or delta <= 0`. -/
def validate_eps_delta (eps delta : Option ℚ) : Except String Unit :=
  match eps, delta with
  | some e, some d =>
      if e ≤ 0 ∨ d ≤ 0 then
        .error "Epsilon and delta must be set to positive numbers"
      else .ok ()
  | _, _ => .error "Epsilon and delta must be set to positive numbers"

/-- Privacy prelude of `BaseEBM.fit` (ebm.py 683-708): `validate_eps_delta`
runs first; only on success are the budgets split
(`bin_eps = eps * bin_budget_frac`, `training_eps = eps - bin_eps`,
`bin_delta = training_delta = delta / 2`).  Returned tuple:
`(bin_eps, bin_delta, training_eps, training_delta)`. -/
def dp_fit_privacy_setup (eps delta : Option ℚ) (bin_budget_frac : ℚ) :
    Except String (ℚ × ℚ × ℚ × ℚ) :=
  match validate_eps_delta eps delta with
  | .error msg => .error msg
  | .ok _ =>
      let e := eps.getD 0
      let d := delta.getD 0
      let bin_eps := e * bin_budget_frac
      let training_eps := e - bin_eps
      let bin_delta := d / 2
      let training_delta := d / 2
      .ok (bin_eps, bin_delta, training_eps, training_delta)

/-! ## merge_ebms type dispatch (utils.py 525-558) -/

/-- The four concrete EBM estimator classes that `merge_ebms` accepts. -/
inductive EBMType where
  | classifier
  | dpClassifier
  | regressor
  | dpRegressor
deriving DecidableEq

/-- Whether the class is one of the two classifier classes. -/
def EBMType.isClassifierType : EBMType → Bool
  | .classifier => true
  | .dpClassifier => true
  | _ => false

/-- Whether the class is one of the two differentially-private classes. -/
def EBMType.isPrivateType : EBMType → Bool
  | .dpClassifier => true
  | .dpRegressor => true
  | _ => false

/-- Type dispatch at the top of `merge_ebms` (utils.py 525-558), which runs
before any bin or tensor work.  `models.dedup` models
`list(set(map(type, models)))`; the result tuple is
`(ebm_type, is_classifier, is_private)`. -/
def merge_ebms_type_dispatch (models : List EBMType) :
    Except String (EBMType × Bool × Bool) :=
  if models.length = 0 then .error "0 models to merge."
  else
    let model_types := models.dedup
    if model_types.length = 2 then
      if EBMType.classifier ∈ model_types ∧ EBMType.dpClassifier ∈ model_types then
        .ok (.classifier, true, false)
      else if EBMType.regressor ∈ model_types ∧ EBMType.dpRegressor ∈ model_types then
        .ok (.regressor, false, false)
      else .error "Inconsistent model types attempting to be merged."
    else if model_types.length = 1 then
      let t := model_types.headD .classifier
      .ok (t, t.isClassifierType, t.isPrivateType)
    else .error "Inconsistent model types being merged."

/-! ## Private categorical binning (utils.py `DPUtils.private_categorical_binning`) -/

/-- Index of the first minimum of a list (`np.argmin`). -/
def idxmin : List ℚ → ℕ
  | [] => 0
  | [_] => 0
  | x :: y :: rest =>
      let j := idxmin (y :: rest)
      if (y :: rest).getD j 0 < x then j + 1 else 0

/-- `np.clip(w, 0, None)` on a single value. -/
def clip0 (w : ℚ) : ℚ := if w < 0 then 0 else w

/-- `DPUtils.private_categorical_binning` (utils.py 1289-1333), embedded from
the per-category weight vector that `np.unique`/`np.bincount` produce
(`weights0`), the Gaussian noise draw (`noise`), and the true total sample
weight (`total`, i.e. `len(col_data)` or `sum(sample_weight)`).  Returns the
final per-bin weights; the parallel category-label bookkeeping does not affect
the weights and is omitted. -/
def private_categorical_binning (weights0 noise : List ℚ) (total : ℚ)
    (max_bins : ℕ) : List ℚ :=
  let weights1 := (List.zipWith (· + ·) weights0 noise).map clip0
  let target := total / max_bins
  let small := weights1.filter (fun w => decide (w < target))
  if small.length = 0 then weights1
  else
    let survivors := weights1.filter (fun w => decide (¬ w < target))
    let other := small.sum
    let weights2 := survivors ++ [other]
    if other < target then
      if weights2.length = 1 then [target]
      else
        let j := idxmin weights2.dropLast
        (weights2.dropLast.eraseIdx j) ++ [other + weights2.dropLast.getD j 0]
    else weights2

/-! ## Private numeric binning (utils.py `DPUtils.private_numeric_binning`)
and the continuous binning modes of `EBMPreprocessor.fit` (ebm.py 214-248) -/

/-- Bucket index a sample falls into for `np.histogram` with `nbins`
equal-width buckets over `[lo, hi]`: values outside the range are ignored,
interior buckets are right-open, the last bucket is closed. -/
def bucketIdx (lo hi : ℚ) (nbins : ℕ) (x : ℚ) : Option ℕ :=
  if x < lo ∨ hi < x then none
  else some (min (⌊(x - lo) * nbins / (hi - lo)⌋).toNat (nbins - 1))

/-- The (value, weight) pairs `np.histogram` weighs: `sample_weight = none`
means unit weights. -/
def histPairs (col_data : List ℚ) (sample_weight : Option (List ℚ)) :
    List (ℚ × ℚ) :=
  match sample_weight with
  | none => col_data.map (fun x => (x, (1:ℚ)))
  | some sw => col_data.zip sw

/-- `np.histogram(col_data, bins=nbins, range=(lo, hi),
weights=sample_weight)` bucket totals (utils.py 1252). -/
def histWeights (col_data : List ℚ) (sample_weight : Option (List ℚ))
    (lo hi : ℚ) (nbins : ℕ) : List ℚ :=
  (List.range nbins).map (fun i =>
    (((histPairs col_data sample_weight).filter
      (fun p => bucketIdx lo hi nbins p.1 = some i)).map Prod.snd).sum)

/-- The `nbins + 1` equally spaced histogram edges `np.histogram` uses. -/
def histEdges (lo hi : ℚ) (nbins : ℕ) : List ℚ :=
  (List.range (nbins + 1)).map (fun i : ℕ => lo + (i : ℚ) * (hi - lo) / (nbins : ℚ))

/-- The greedy collapse loop of `private_numeric_binning` (utils.py
1264-1271): walk `(noisy weight, right edge)` pairs accumulating weight into
`curr`; when the accumulator reaches `target` emit the right edge as a cut
and the accumulated weight as a bin weight and reset.  Returns
`(emitted cuts, emitted weights, leftover accumulator)`. -/
def greedyCollapse (target : ℚ) : List (ℚ × ℚ) → ℚ → List ℚ × List ℚ × ℚ
  | [], curr => ([], [], curr)
  | (w, e) :: rest, curr =>
      let c := curr + w
      if target ≤ c then
        let res := greedyCollapse target rest 0
        (e :: res.1, c :: res.2.1, res.2.2)
      else greedyCollapse target rest c

/-- The noise-perturbed, zero-clipped fine bucket weights of
`private_numeric_binning` (utils.py 1252-1256); `noise` is the Gaussian
noise draw, one value per fine bucket. -/
def noisyClippedWeights (col_data : List ℚ) (sample_weight : Option (List ℚ))
    (noise : List ℚ) (max_bins : ℕ) (min_val max_val : ℚ) : List ℚ :=
  let uniform_weights := histWeights col_data sample_weight min_val max_val (max_bins * 2)
  (List.zipWith (· + ·) uniform_weights noise).map clip0

/-- `len(col_data) if sample_weight is None else np.sum(sample_weight)`
(utils.py 1262). -/
def sample_total (col_data : List ℚ) (sample_weight : Option (List ℚ)) : ℚ :=
  match sample_weight with
  | none => (col_data.length : ℚ)
  | some sw => sw.sum

/-- `DPUtils.private_numeric_binning` (utils.py 1250-1287): histogram with
`max_bins*2` fine buckets over the public `[min_val, max_val]` range, noise,
clip, greedy collapse toward `target = total/max_bins`, leftover folded into
the last bin, first and last collected cut stripped; if no bin ever reached
the target, force a single bin of exactly the target weight.  Returns
`(bin_cuts, bin_weights)`. -/
def private_numeric_binning (col_data : List ℚ) (sample_weight : Option (List ℚ))
    (noise : List ℚ) (max_bins : ℕ) (min_val max_val : ℚ) : List ℚ × List ℚ :=
  let noisy_weights := noisyClippedWeights col_data sample_weight noise max_bins min_val max_val
  let uniform_edges := histEdges min_val max_val (max_bins * 2)
  let target_weight : ℚ := sample_total col_data sample_weight / (max_bins : ℚ)
  let res := greedyCollapse target_weight (noisy_weights.zip uniform_edges.tail) 0
  if res.2.1.length = 0 then (([] : List ℚ), [0, target_weight])
  else (res.1.dropLast, 0 :: (res.2.1.dropLast ++ [res.2.1.getLastD 0 + res.2.2]))

/-- The spec's deterministic threshold-crossing scan (spec §8.4), written
independently of the source as a left fold: accumulate bucket weights and
record a bin boundary whenever the accumulator crosses the threshold, then
reset the accumulator. -/
def thresholdScanCuts (threshold : ℚ) (buckets : List (ℚ × ℚ)) : List ℚ :=
  (buckets.foldl
    (fun st p =>
      if threshold ≤ st.1 + p.1 then ((0:ℚ), st.2 ++ [p.2]) else (st.1 + p.1, st.2))
    ((0:ℚ), ([] : List ℚ))).2

/-- Modelled from the spec: the native `cut_uniform` (external C++ engine,
not under src/) — "equal-width cuts spanning [min, max] of the observed
data", invoked with `max_bins - 2` as the cut count (ebm.py 236). -/
def cut_uniform_spec (lo hi : ℚ) (max_bins : ℕ) : List ℚ :=
  if lo < hi then
    (List.range (max_bins - 2)).map
      (fun i : ℕ => lo + ((i : ℚ) + 1) * (hi - lo) / ((max_bins : ℚ) - 1))
  else []

/-- Modelled from the spec: the native `cut_quantile` (external C++ engine,
not under src/) — "choose up to max_bins-2 cut points so each bin contains a
target minimum of samples", invoked with `max_bins - 2` (ebm.py 233, also
covering the humanized variant, which "snaps cuts to round numbers without
changing bin membership materially").  Modelled as lower-bound-inclusive cuts
at the sorted distinct sample values, truncated to `max_bins - 2` cuts. -/
def cut_quantile_spec (col_data : List ℚ) (max_bins : ℕ) : List ℚ :=
  (((col_data.insertionSort (· ≤ ·)).dedup).drop 1).take (max_bins - 2)

/-! ## Tensor harmonization (utils.py `_harmonize_tensor`, continuous
single-feature case) -/

/-- `np.searchsorted(l, x, side='left')` for sorted `l`: the number of
elements strictly below `x`. -/
def searchsortedLeft (l : List ℚ) (x : ℚ) : ℕ :=
  l.countP (fun c => decide (c < x))

/-- The pre-extension lookup of `_harmonize_tensor` (utils.py 405-406):
old cell index (1-based region) for new region `k` (0-based), the appended
final entry mapping the top region to `len(old_bins) + 1`. -/
def lookupAt (oldCuts newCuts : List ℚ) (k : ℕ) : ℕ :=
  if k = newCuts.length then oldCuts.length + 1
  else searchsortedLeft oldCuts (newCuts.getD k 0) + 1

/-- Lower edge of new region `k` (utils.py 409-414). -/
def newLowEdge (nlo : ℚ) (newCuts : List ℚ) (k : ℕ) : ℚ :=
  if k = 0 then nlo else newCuts.getD (k - 1) 0

/-- Upper edge of new region `k` (utils.py 416-420). -/
def newHighEdge (nhi : ℚ) (newCuts : List ℚ) (k : ℕ) : ℚ :=
  if newCuts.length ≤ k then nhi else newCuts.getD k 0

/-- Lower edge of old cell `oi` (utils.py 423-427). -/
def oldLowEdge (olo : ℚ) (oldCuts : List ℚ) (oi : ℕ) : ℚ :=
  if oi = 1 then olo else oldCuts.getD (oi - 2) 0

/-- Upper edge of old cell `oi` (utils.py 429-433). -/
def oldHighEdge (ohi : ℚ) (oldCuts : List ℚ) (oi : ℕ) : ℚ :=
  if oldCuts.length < oi then ohi else oldCuts.getD (oi - 1) 0

/-- The fractional overlap of new region `k` with its old cell (utils.py
435-453): zero when they do not overlap, otherwise the clamped interval
length ratio. -/
def harmonizePct (olo ohi nlo nhi : ℚ) (oldCuts newCuts : List ℚ) (k : ℕ) : ℚ :=
  let oi := lookupAt oldCuts newCuts k
  let nl := newLowEdge nlo newCuts k
  let nh := newHighEdge nhi newCuts k
  let ol := oldLowEdge olo oldCuts oi
  let oh := oldHighEdge ohi oldCuts oi
  if oh ≤ nl ∨ nh ≤ ol then 0
  else
    let nl2 := if nl < ol then ol else nl
    let nh2 := if oh < nh then oh else nh
    (nh2 - nl2) / (oh - ol)

/-- The full lookup row including the prepended missing bin (`0`) and the
appended unknown bin (`-1`, i.e. the last old cell; utils.py 456-457). -/
def lookupFullAt (oldCuts newCuts : List ℚ) (j : ℕ) : ℕ :=
  if j = 0 then 0
  else if j = newCuts.length + 2 then oldCuts.length + 2
  else lookupAt oldCuts newCuts (j - 1)

/-- The full percentage row: `1.0` for the missing and unknown bins
(utils.py 408, 455). -/
def pctFullAt (olo ohi nlo nhi : ℚ) (oldCuts newCuts : List ℚ) (j : ℕ) : ℚ :=
  if j = 0 then 1
  else if j = newCuts.length + 2 then 1
  else harmonizePct olo ohi nlo nhi oldCuts newCuts (j - 1)

/-- One output cell of `_harmonize_tensor` (utils.py 470-513): gather the
old cells the categorical-conversion mapping assigns; a single cell is
copied exactly (times the overlap fraction for weight tensors), several
cells are summed (weights) or evidence-weight averaged (scores). -/
def harmonizeCell (oldT : List ℚ) (evid : Option (List ℚ)) (frac : ℚ)
    (cellMap : List ℕ) : ℚ :=
  if cellMap.length = 1 then
    let v := oldT.getD (cellMap.headD 0) 0
    if evid.isSome then v else v * frac
  else
    match evid with
    | none => ((cellMap.map (fun o => oldT.getD o 0)).sum) * frac
    | some ev =>
        let tw := (cellMap.map (fun o => ev.getD o 0)).sum
        if tw ≠ 0 then
          ((cellMap.map (fun o => oldT.getD o 0 * ev.getD o 0)).sum) / tw
        else ((cellMap.map (fun o => oldT.getD o 0 * ev.getD o 0)).sum)

/-- The identity mapping `_harmonize_tensor` builds when `old_mapping` is
`None` (utils.py 360-361). -/
def identityMapping (oi : ℕ) : List ℕ := [oi]

/-- `_harmonize_tensor` (utils.py 297-515) for a main term of one
continuous feature: old tensor of length `len(oldCuts) + 3` (missing bin,
regions, unknown bin) redistributed onto the new grid.  `evid = some w`
harmonizes a score tensor with evidence weights `w`; `evid = none` a weight
tensor. -/
def harmonize_tensor (olo ohi nlo nhi : ℚ) (oldCuts newCuts : List ℚ)
    (mapping : ℕ → List ℕ) (oldT : List ℚ) (evid : Option (List ℚ)) : List ℚ :=
  (List.range (newCuts.length + 3)).map (fun j =>
    harmonizeCell oldT evid (pctFullAt olo ohi nlo nhi oldCuts newCuts j)
      (mapping (lookupFullAt oldCuts newCuts j)))

/-- The fiber boundaries: new region indices `[fiberStart i, fiberStart
(i+1))` are exactly those lying inside old region `i+1` when the new cuts
refine the old cuts. -/
def fiberStart (oldCuts newCuts : List ℚ) (i : ℕ) : ℕ :=
  if i = 0 then 0
  else if i ≤ oldCuts.length then
    searchsortedLeft newCuts (oldCuts.getD (i - 1) 0) + 1
  else newCuts.length + 1

/-! ## Term centering and zero restoration (ebm.py 1006-1030, utils.py 31-60) -/

/-- All multi-indices of a tensor shape, in row-major order. -/
def allIdx : List ℕ → List (List ℕ)
  | [] => [[]]
  | n :: rest => (List.range n).flatMap (fun i => (allIdx rest).map (fun t => i :: t))

/-- Sum of a tensor entry function over a whole shape. -/
def tensorSum (shape : List ℕ) (f : List ℕ → ℚ) : ℚ :=
  ((allIdx shape).map f).sum

/-- `np.average(a, weights=w)` over a whole tensor. -/
def tensorWeightedMean (shape : List ℕ) (v w : List ℕ → ℚ) : ℚ :=
  tensorSum shape (fun i => v i * w i) / tensorSum shape w

/-- One term of a fitted `n_classes <= 2` model: the tensor shape, the score
tensor entries and the `bin_weights_` entries, both indexed by multi-index. -/
structure TermData where
  shape : List ℕ
  score : List ℕ → ℚ
  weight : List ℕ → ℚ

/-- The per-term centering step (ebm.py 1020-1021): subtract the weighted
mean score. -/
def centerTerm (t : TermData) : TermData :=
  ⟨t.shape, fun i => t.score i - tensorWeightedMean t.shape t.score t.weight,
    t.weight⟩

/-- Sum over the slice of a weight tensor with coordinate `d` pinned to
`k` (the `np.sum(weights[tuple(dim_slices)])` of utils.py 52-59). -/
def sliceSum (shape : List ℕ) (w : List ℕ → ℚ) (d k : ℕ) : ℚ :=
  (((allIdx shape).filter (fun i => i.getD d 0 = k)).map w).sum

/-- Whether `_restore_missing_value_zeros2` / `_zero_tensor` (utils.py
31-60) zeroes multi-index `i`: some axis has a zero-total first or last
slice and `i` lies on it (index `0`, or index `-1` i.e. the last index,
along that axis). -/
def zeroedIdx (shape : List ℕ) (w : List ℕ → ℚ) (i : List ℕ) : Bool :=
  (List.range shape.length).any (fun d =>
    (decide (sliceSum shape w d 0 = 0) && decide (i.getD d 0 = 0)) ||
    (decide (sliceSum shape w d (shape.getD d 0 - 1) = 0) &&
      decide (i.getD d 0 = shape.getD d 0 - 1)))

/-- The zero-restoration step applied to one term's scores. -/
def restoreTerm (t : TermData) : TermData :=
  ⟨t.shape, fun i => if zeroedIdx t.shape t.weight i then 0 else t.score i,
    t.weight⟩

/-- The fit postprocessing for `n_classes <= 2` (ebm.py 1018-1030): center
every term, accumulating each removed mean into the intercept (initially
zero), then restore the zeros on zero-weight edge slices.  Returns the
processed terms and the final intercept. -/
def fitPostprocess (terms : List TermData) : List TermData × ℚ :=
  (terms.map (fun t => restoreTerm (centerTerm t)),
    terms.foldl (fun acc t => acc + tensorWeightedMean t.shape t.score t.weight) 0)

/-- A concrete one-term model used to witness the centering invariant. -/
def exampleTermData : TermData :=
  ⟨[2], fun i => if i.getD 0 0 = 0 then 4 else 0, fun _ => 1⟩

/-! ## Early stopping in cyclic_gradient_boost (utils.py 1103-1177) -/

/-- Loop state of `EBMUtils.cyclic_gradient_boost`: `min_metric` and
`bp_metric` start at `np.inf` (modelled by `⊤` in `WithTop ℚ`), and the
no-improvement streak counter `no_change_run_length` starts at 0. -/
structure BoostState where
  min_metric : WithTop ℚ
  bp_metric : WithTop ℚ
  no_change_run_length : ℕ

/-- Initial loop state (utils.py 1103, 1114-1115). -/
def initBoostState : BoostState := ⟨⊤, ⊤, 0⟩

/-- One round of `for episode_index in range(max_rounds)` (utils.py
1117-1171): `metrics` lists the validation metric `apply_term_update`
returned for each term this round (the native booster is external);
`min_metric` is folded with `min`; then `bp_metric` is refreshed at the start
of a streak and the streak counter is reset on improvement beyond the
tolerance, else incremented. -/
def boostRound (tol : ℚ) (metrics : List ℚ) (st : BoostState) : BoostState :=
  let min_metric := metrics.foldl (fun m c => min ((c : WithTop ℚ)) m) st.min_metric
  let bp_metric := if st.no_change_run_length = 0 then min_metric else st.bp_metric
  let run := if min_metric + ((tol : ℚ) : WithTop ℚ) < bp_metric then 0
             else st.no_change_run_length + 1
  ⟨min_metric, bp_metric, run⟩

/-- The round loop with its early-stopping break (utils.py 1117-1177):
returns the final state and the number of executed rounds.  The break fires
only when `early_stopping_rounds >= 0` and the streak has reached it. -/
def boostLoop (esr : ℤ) (tol : ℚ) : List (List ℚ) → BoostState → BoostState × ℕ
  | [], st => (st, 0)
  | r :: rest, st =>
      let st2 := boostRound tol r st
      if 0 ≤ esr ∧ esr ≤ (st2.no_change_run_length : ℤ) then (st2, 1)
      else
        let res := boostLoop esr tol rest st2
        (res.1, res.2 + 1)

/-! ## merge_ebms on models (utils.py 517-934), sliced to one feature

A model slice: one continuous feature, one single-level bin list (the cuts
array `bins_[0][0]`), one main term `(0,)` with its bin-weight tensor
`bin_weights_[0]` and its per-bag score tensors `bagged_additive_terms_[0]`
(regression, so tensors are flat lists over the `len(cuts) + 3` bins).
Category labels of categorical bins are coded by natural numbers whose
numeric order is the labels' alphabetical order. -/

/-- A fitted model restricted to one continuous feature and its main term. -/
structure EBMModel where
  lo : ℚ
  hi : ℚ
  cuts : List ℚ
  binW : List ℚ
  bagged : List (List ℚ)

/-- The merged-model attributes produced for that feature and term. -/
structure MergedEBM where
  cuts : List ℚ
  binW : List ℚ
  additive : List ℚ
  intercept : ℚ

/-- `np.nanmin` of the two lower feature bounds (utils.py 729). -/
def mergeLo (a b : ℚ) : ℚ := if a ≤ b then a else b

/-- `np.nanmax` of the two upper feature bounds (utils.py 730). -/
def mergeHi (a b : ℚ) : ℚ := if a ≤ b then b else a

/-- `np.average(score_tensors, axis=0)` over the bags, cell by cell
(utils.py 214, ebm.py 1013). -/
def avgTensors (ts : List (List ℚ)) (len : ℕ) : List ℚ :=
  (List.range len).map (fun j =>
    (ts.map (fun t => t.getD j 0)).sum / (ts.length : ℚ))

/-- `np.average(score_tensors, axis=0, weights=bag_weights)` (utils.py 217). -/
def weightedAvgTensors (ts : List (List ℚ)) (w : List ℚ) (len : ℕ) : List ℚ :=
  (List.range len).map (fun j =>
    (List.zipWith (fun t wi => t.getD j 0 * wi) ts w).sum / w.sum)

/-- `np.average(additive_terms[idx], weights=bin_weights[idx])` (utils.py
224, ebm.py 1020). -/
def weightedMean1 (a w : List ℚ) : ℚ := (List.zipWith (· * ·) a w).sum / w.sum

/-- `_restore_missing_value_zeros2` for one flat tensor (utils.py 31-60):
zero the missing bin (index 0) when its weight is zero and the unknown bin
(index `-1`) when its weight is zero. -/
def restore1 (t w : List ℚ) : List ℚ :=
  (List.range t.length).map (fun j =>
    if j = 0 ∧ w.getD 0 0 = 0 then 0
    else if j + 1 = t.length ∧ w.getD (w.length - 1) 0 = 0 then 0
    else t.getD j 0)

/-- The per-term tail of a single model's fit (ebm.py 1006-1030) for one
regression term: bag-average the score tensors, subtract the bin-weighted
mean (which moves to the intercept), and restore the missing/unknown zeros. -/
def processTerm (bagged : List (List ℚ)) (binW : List ℚ) (len : ℕ) :
    List ℚ × ℚ :=
  let a := avgTensors bagged len
  let mu := weightedMean1 a binW
  (restore1 (a.map (fun x => x - mu)) binW, mu)

/-- `merge_ebms` of two such models (utils.py 517-934, continuous branch):
merged cuts are `sorted(set(chain(...)))` (702); merged bounds are the
nanmin/nanmax of the old bounds (729-732); each model's weight tensor and
per-bag score tensors are harmonized onto the merged grid (852-911) and the
weight tensors summed (912); `_process_terms` (915, utils.py 205-240) then
bag-averages (unweighted exactly when all bag weights are equal, 212-218,
with each model's bag weight being its average total term weight, 774-791),
centers by the bin-weighted mean into the intercept and restores the
missing/unknown zeros. -/
def merge_ebms_main (m1 m2 : EBMModel) : MergedEBM :=
  let newCuts := List.insertionSort (· ≤ ·) ((m1.cuts ++ m2.cuts).dedup)
  let nlo := mergeLo m1.lo m2.lo
  let nhi := mergeHi m1.hi m2.hi
  let len := newCuts.length + 3
  let hw1 := harmonize_tensor m1.lo m1.hi nlo nhi m1.cuts newCuts
    identityMapping m1.binW none
  let hw2 := harmonize_tensor m2.lo m2.hi nlo nhi m2.cuts newCuts
    identityMapping m2.binW none
  let binW := List.zipWith (· + ·) hw1 hw2
  let bagged := m1.bagged.map (fun t =>
      harmonize_tensor m1.lo m1.hi nlo nhi m1.cuts newCuts identityMapping t
        (some m1.binW)) ++
    m2.bagged.map (fun t =>
      harmonize_tensor m2.lo m2.hi nlo nhi m2.cuts newCuts identityMapping t
        (some m2.binW))
  let bw := List.replicate m1.bagged.length m1.binW.sum ++
    List.replicate m2.bagged.length m2.binW.sum
  let a := if bw.all (fun x => decide (x = bw.headD 0)) then avgTensors bagged len
    else weightedAvgTensors bagged bw len
  let mu := weightedMean1 a binW
  ⟨newCuts, binW, restore1 (a.map (fun x => x - mu)) binW, mu⟩

/-- The ordinal bin dictionary built by the preprocessor (ebm.py 257):
category values in the user-specified order, mapped to bins `1, 2, ...`. -/
def ordinalBins (ordering : List ℕ) : List (ℕ × ℕ) :=
  ordering.zip (List.range' 1 ordering.length)

/-- The categorical bin merger of `merge_ebms` (utils.py 663-674):
`merged_keys = sorted(set(chain(...keys...)))` re-indexed by `count(1)`. -/
def mergeCatBins (b1 b2 : List (ℕ × ℕ)) : List (ℕ × ℕ) :=
  let keys := List.insertionSort (· ≤ ·) ((b1.map Prod.fst ++ b2.map Prod.fst).dedup)
  keys.zip (List.range' 1 keys.length)

/-- A concrete two-bag single-feature model used to instantiate the
self-merge theorem. -/
def exampleModel : EBMModel :=
  ⟨0, 3, [1, 2], [1, 2, 3, 1, 1], [[1, 2, 3, 4, 5], [3, 2, 1, 0, 1]]⟩

end EBM

namespace EBM

/-! ## Theorems -/

/-- C6: `normalize_initial_random_seed` is the identity on
`[-2147483646, 2147483646]`; for `s ≥ 2147483647` it returns
`s % 2147483647` and for `s ≤ -2147483647` it returns
`-((-s) % 2147483647)` (negative taken before the modulo); in particular
`2147483647 ↦ 0` and `-2147483648 ↦ -1`. -/
theorem normalize_initial_random_seed_spec (s : ℤ) :
    (-2147483646 ≤ s → s ≤ 2147483646 → normalize_initial_random_seed s = s) ∧
    (2147483647 ≤ s → normalize_initial_random_seed s = s % 2147483647) ∧
    (s ≤ -2147483647 → normalize_initial_random_seed s = -((-s) % 2147483647)) ∧
    normalize_initial_random_seed 2147483647 = 0 ∧
    normalize_initial_random_seed (-2147483648) = -1 := by
  refine ⟨?_, ?_, ?_, by decide, by decide⟩
  · intro h1 h2
    unfold normalize_initial_random_seed
    rw [if_neg (by omega), if_neg (by omega)]
  · intro h
    unfold normalize_initial_random_seed
    rw [if_pos h]
  · intro h
    unfold normalize_initial_random_seed
    rw [if_neg (by omega), if_pos h]

/-- Witness for C6 at concrete seeds. -/
theorem normalize_initial_random_seed_spec_witness :
    normalize_initial_random_seed 12345 = 12345 ∧
    normalize_initial_random_seed 4294967296 = 4294967296 % 2147483647 ∧
    normalize_initial_random_seed (-4294967296) = -((4294967296 : ℤ) % 2147483647) := by
  refine ⟨?_, ?_, ?_⟩
  · exact (normalize_initial_random_seed_spec 12345).1 (by decide) (by decide)
  · exact (normalize_initial_random_seed_spec 4294967296).2.1 (by decide)
  · exact (normalize_initial_random_seed_spec (-4294967296)).2.2.1 (by decide)

/-- C8: `validate_eps_delta` succeeds exactly when both `epsilon` and `delta`
are set and positive (so it raises exactly when either is unset or ≤ 0), and
the DP fit prelude invokes this check first: on any invalid pair it returns
the error and produces none of the split budgets (no partial state). -/
theorem validate_eps_delta_spec (eps delta : Option ℚ) :
    (validate_eps_delta eps delta = .ok () ↔
      ∃ e d, eps = some e ∧ delta = some d ∧ 0 < e ∧ 0 < d) ∧
    ((¬ ∃ e d, eps = some e ∧ delta = some d ∧ 0 < e ∧ 0 < d) →
      ∀ bbf : ℚ, ∃ msg, dp_fit_privacy_setup eps delta bbf = .error msg) := by
  constructor
  · constructor
    · intro h
      match eps, delta with
      | some e, some d =>
          refine ⟨e, d, rfl, rfl, ?_, ?_⟩ <;>
          · by_contra hc
            push_neg at hc
            simp only [validate_eps_delta] at h
            rw [if_pos (by tauto)] at h
            exact absurd h (by simp)
      | none, _ => exact absurd h (by simp [validate_eps_delta])
      | some _, none => exact absurd h (by simp [validate_eps_delta])
    · rintro ⟨e, d, rfl, rfl, he, hd⟩
      simp only [validate_eps_delta]
      rw [if_neg (by push_neg; constructor <;> linarith)]
  · intro hbad bbf
    have herr : ∃ msg, validate_eps_delta eps delta = .error msg := by
      match eps, delta with
      | some e, some d =>
          rcases le_or_lt e 0 with he | he
          · exact ⟨_, by simp only [validate_eps_delta]; rw [if_pos (Or.inl he)]⟩
          · rcases le_or_lt d 0 with hd | hd
            · exact ⟨_, by simp only [validate_eps_delta]; rw [if_pos (Or.inr hd)]⟩
            · exact absurd ⟨e, d, rfl, rfl, he, hd⟩ hbad
      | none, _ => exact ⟨"Epsilon and delta must be set to positive numbers", by
          simp [validate_eps_delta]⟩
      | some _, none => exact ⟨"Epsilon and delta must be set to positive numbers", by
          simp [validate_eps_delta]⟩
    obtain ⟨msg, hmsg⟩ := herr
    exact ⟨msg, by simp [dp_fit_privacy_setup, hmsg]⟩

/-- Witness for C8: `epsilon = 0` is rejected and yields no state. -/
theorem validate_eps_delta_spec_witness :
    ∃ msg, dp_fit_privacy_setup (some 0) (some (1/100000)) (1/10) = .error msg := by
  refine (validate_eps_delta_spec (some 0) (some (1/100000))).2 ?_ (1/10)
  rintro ⟨e, d, he, hd, hpos, -⟩
  cases he
  exact absurd hpos (by norm_num)

/-- C9: the `merge_ebms` type dispatch accepts a DP plus non-DP mixture of the
same predict-kind, demoting the result to the non-DP class; an empty model
list, or any mixture containing both a classifier-kind and a regressor-kind
model, is rejected (before any tensor work, which follows the dispatch). -/
theorem merge_ebms_type_dispatch_spec (models : List EBMType) :
    (models = [] → ∃ msg, merge_ebms_type_dispatch models = .error msg) ∧
    (EBMType.classifier ∈ models → EBMType.dpClassifier ∈ models →
      (∀ t ∈ models, t = .classifier ∨ t = .dpClassifier) →
      merge_ebms_type_dispatch models = .ok (.classifier, true, false)) ∧
    (EBMType.regressor ∈ models → EBMType.dpRegressor ∈ models →
      (∀ t ∈ models, t = .regressor ∨ t = .dpRegressor) →
      merge_ebms_type_dispatch models = .ok (.regressor, false, false)) ∧
    ((∃ c ∈ models, c.isClassifierType = true) →
      (∃ r ∈ models, r.isClassifierType = false) →
      ∃ msg, merge_ebms_type_dispatch models = .error msg) := by
  refine ⟨?_, ?_, ?_, ?_⟩
  · rintro rfl
    exact ⟨"0 models to merge.", rfl⟩
  · intro h1 h2 hall
    have hlen0 : models.length ≠ 0 := by
      intro h
      rw [List.length_eq_zero] at h
      subst h
      exact absurd h1 (by simp)
    have hm1 : EBMType.classifier ∈ models.dedup := List.mem_dedup.mpr h1
    have hm2 : EBMType.dpClassifier ∈ models.dedup := List.mem_dedup.mpr h2
    have hperm : models.dedup.Perm [EBMType.classifier, EBMType.dpClassifier] := by
      refine List.perm_of_nodup_nodup_toFinset_eq (List.nodup_dedup models) (by decide) ?_
      ext t
      simp only [List.mem_toFinset, List.mem_dedup]
      constructor
      · intro ht
        simpa using hall t ht
      · intro ht
        simp only [List.mem_cons, List.not_mem_nil, or_false] at ht
        rcases ht with rfl | rfl
        · exact h1
        · exact h2
    have hlen2 : models.dedup.length = 2 := hperm.length_eq
    simp only [merge_ebms_type_dispatch]
    rw [if_neg hlen0, if_pos hlen2, if_pos ⟨hm1, hm2⟩]
  · intro h1 h2 hall
    have hlen0 : models.length ≠ 0 := by
      intro h
      rw [List.length_eq_zero] at h
      subst h
      exact absurd h1 (by simp)
    have hm1 : EBMType.regressor ∈ models.dedup := List.mem_dedup.mpr h1
    have hm2 : EBMType.dpRegressor ∈ models.dedup := List.mem_dedup.mpr h2
    have hperm : models.dedup.Perm [EBMType.regressor, EBMType.dpRegressor] := by
      refine List.perm_of_nodup_nodup_toFinset_eq (List.nodup_dedup models) (by decide) ?_
      ext t
      simp only [List.mem_toFinset, List.mem_dedup]
      constructor
      · intro ht
        simpa using hall t ht
      · intro ht
        simp only [List.mem_cons, List.not_mem_nil, or_false] at ht
        rcases ht with rfl | rfl
        · exact h1
        · exact h2
    have hlen2 : models.dedup.length = 2 := hperm.length_eq
    have hno : ¬ (EBMType.classifier ∈ models.dedup ∧ EBMType.dpClassifier ∈ models.dedup) := by
      rintro ⟨hc, -⟩
      have := hall _ (List.mem_dedup.mp hc)
      simp at this
    simp only [merge_ebms_type_dispatch]
    rw [if_neg hlen0, if_pos hlen2, if_neg hno, if_pos ⟨hm1, hm2⟩]
  · rintro ⟨c, hc, hcT⟩ ⟨r, hr, hrF⟩
    by_cases hlen0 : models.length = 0
    · exact ⟨"0 models to merge.", by simp only [merge_ebms_type_dispatch]; rw [if_pos hlen0]⟩
    have hcd : c ∈ models.dedup := List.mem_dedup.mpr hc
    have hrd : r ∈ models.dedup := List.mem_dedup.mpr hr
    have hcr : c ≠ r := by
      intro h
      rw [h, hrF] at hcT
      exact absurd hcT (by simp)
    by_cases hlen2 : models.dedup.length = 2
    · by_cases hcls : EBMType.classifier ∈ models.dedup ∧ EBMType.dpClassifier ∈ models.dedup
      · exfalso
        have hr1 : r ≠ .classifier := by
          intro h
          rw [h] at hrF
          exact absurd hrF (by simp [EBMType.isClassifierType])
        have hr2 : r ≠ .dpClassifier := by
          intro h
          rw [h] at hrF
          exact absurd hrF (by simp [EBMType.isClassifierType])
        have h3 : [EBMType.classifier, EBMType.dpClassifier, r].Nodup := by
          simp [List.nodup_cons, Ne.symm hr1, Ne.symm hr2]
        have hsub3 : [EBMType.classifier, EBMType.dpClassifier, r] ⊆ models.dedup := by
          intro t ht
          simp only [List.mem_cons, List.not_mem_nil, or_false] at ht
          rcases ht with rfl | rfl | rfl
          · exact hcls.1
          · exact hcls.2
          · exact hrd
        have := (h3.subperm hsub3).length_le
        rw [hlen2] at this
        simp at this
      · by_cases hreg : EBMType.regressor ∈ models.dedup ∧ EBMType.dpRegressor ∈ models.dedup
        · exfalso
          have hc1 : c ≠ .regressor := by
            intro h
            rw [h] at hcT
            exact absurd hcT (by simp [EBMType.isClassifierType])
          have hc2 : c ≠ .dpRegressor := by
            intro h
            rw [h] at hcT
            exact absurd hcT (by simp [EBMType.isClassifierType])
          have h3 : [EBMType.regressor, EBMType.dpRegressor, c].Nodup := by
            simp [List.nodup_cons, Ne.symm hc1, Ne.symm hc2]
          have hsub3 : [EBMType.regressor, EBMType.dpRegressor, c] ⊆ models.dedup := by
            intro t ht
            simp only [List.mem_cons, List.not_mem_nil, or_false] at ht
            rcases ht with rfl | rfl | rfl
            · exact hreg.1
            · exact hreg.2
            · exact hcd
          have := (h3.subperm hsub3).length_le
          rw [hlen2] at this
          simp at this
        · exact ⟨"Inconsistent model types attempting to be merged.", by
            simp only [merge_ebms_type_dispatch]
            rw [if_neg hlen0, if_pos hlen2, if_neg hcls, if_neg hreg]⟩
    · by_cases hlen1 : models.dedup.length = 1
      · exfalso
        rcases List.length_eq_one.mp hlen1 with ⟨t, ht⟩
        rw [ht] at hcd hrd
        simp only [List.mem_singleton] at hcd hrd
        exact hcr (hcd.trans hrd.symm)
      · exact ⟨"Inconsistent model types being merged.", by
          simp only [merge_ebms_type_dispatch]
          rw [if_neg hlen0, if_neg hlen2, if_neg hlen1]⟩

/-- Witness for C9: a DP classifier merged with a plain classifier passes the
dispatch and demotes to the plain classifier type. -/
theorem merge_ebms_type_dispatch_spec_witness :
    merge_ebms_type_dispatch [.dpClassifier, .classifier] =
      .ok (.classifier, true, false) :=
  (merge_ebms_type_dispatch_spec [.dpClassifier, .classifier]).2.1
    (by decide) (by decide) (by decide)

/-- Helper: the first-minimum index is in bounds for nonempty lists. -/
theorem idxmin_lt_length (l : List ℚ) (h : l ≠ []) : idxmin l < l.length := by
  match l with
  | [x] => simp [idxmin]
  | x :: y :: rest =>
      have ih := idxmin_lt_length (y :: rest) (by simp)
      simp only [idxmin]
      split
      · simpa using ih
      · simp

/-- C10: every bin weight returned by `private_categorical_binning` is at
least the target weight `total / max_bins`: surviving categories meet the
threshold by construction, the DPOther bin meets it after at most one
absorption of the smallest remaining bin, and the degenerate single-bin case
is clipped up to exactly the target. -/
theorem private_categorical_binning_min_weight (weights0 noise : List ℚ)
    (total : ℚ) (max_bins : ℕ) :
    ∀ w ∈ private_categorical_binning weights0 noise total max_bins,
      total / (max_bins : ℚ) ≤ w := by
  intro w hw
  simp only [private_categorical_binning] at hw
  set weights1 := (List.zipWith (· + ·) weights0 noise).map clip0 with hw1
  set target := total / (max_bins : ℚ) with htgt
  have hnn : ∀ x ∈ weights1, (0:ℚ) ≤ x := by
    intro x hx
    rw [hw1] at hx
    simp only [List.mem_map] at hx
    obtain ⟨y, -, rfl⟩ := hx
    unfold clip0
    split
    · exact le_refl 0
    · linarith [not_lt.mp (by assumption : ¬ y < 0)]
  by_cases hsmall : (weights1.filter (fun w => decide (w < target))).length = 0
  · rw [if_pos hsmall] at hw
    have := (List.filter_eq_nil_iff.mp (List.length_eq_zero.mp hsmall)) w hw
    simpa using this
  · rw [if_neg hsmall] at hw
    set survivors := weights1.filter (fun w => decide (¬ w < target)) with hsurv
    set other := (weights1.filter (fun w => decide (w < target))).sum with hoth
    have hsurvge : ∀ x ∈ survivors, target ≤ x := by
      intro x hx
      rw [hsurv] at hx
      rcases List.mem_filter.mp hx with ⟨-, hdec⟩
      simp only [decide_eq_true_eq] at hdec
      exact not_lt.mp hdec
    have hothnn : (0:ℚ) ≤ other := by
      rw [hoth]
      exact List.sum_nonneg fun x hx => hnn x (List.mem_of_mem_filter hx)
    by_cases habs : other < target
    · rw [if_pos habs] at hw
      by_cases hone : (survivors ++ [other]).length = 1
      · rw [if_pos hone] at hw
        simp only [List.mem_singleton] at hw
        exact hw ▸ le_refl target
      · rw [if_neg hone] at hw
        rw [List.dropLast_concat] at hw
        have hsne : survivors ≠ [] := by
          intro h
          rw [h] at hone
          exact hone rfl
        rcases List.mem_append.mp hw with hmem | hlast
        · exact hsurvge w (List.eraseIdx_subset _ _ hmem)
        · simp only [List.mem_singleton] at hlast
          subst hlast
          have hj := idxmin_lt_length survivors hsne
          rw [List.getD_eq_getElem survivors 0 hj]
          have := hsurvge _ (List.getElem_mem hj)
          linarith
    · rw [if_neg habs] at hw
      rcases List.mem_append.mp hw with hmem | hlast
      · exact hsurvge w hmem
      · simp only [List.mem_singleton] at hlast
        subst hlast
        exact not_lt.mp habs

/-- Witness for C10: a concrete absorption case (the DPOther bin absorbs the
smallest surviving bin and ends above the target). -/
theorem private_categorical_binning_min_weight_witness :
    (4:ℚ) / ((2:ℕ) : ℚ) ≤ 4 :=
  private_categorical_binning_min_weight [3, 1] [0, 0] 4 2 4 (by
    norm_num [private_categorical_binning, clip0, idxmin, List.filter])

/-- Helper: one round either resets the streak counter or increments it. -/
theorem boostRound_run_cases (tol : ℚ) (metrics : List ℚ) (st : BoostState) :
    (boostRound tol metrics st).no_change_run_length = 0 ∨
    (boostRound tol metrics st).no_change_run_length =
      st.no_change_run_length + 1 := by
  simp only [boostRound]
  exact ite_eq_or_eq _ _ _

/-- Helper: with early stopping disabled the loop executes every round. -/
theorem boostLoop_neg_count (esr : ℤ) (tol : ℚ) (hesr : esr < 0) :
    ∀ (rounds : List (List ℚ)) (st : BoostState),
      (boostLoop esr tol rounds st).2 = rounds.length := by
  intro rounds
  induction rounds with
  | nil => intro st; rfl
  | cons r rest ih =>
      intro st
      simp only [boostLoop]
      rw [if_neg (by rintro ⟨h, -⟩; omega)]
      simp [ih]

/-- Helper: the loop never executes more rounds than `max_rounds`. -/
theorem boostLoop_count_le (esr : ℤ) (tol : ℚ) :
    ∀ (rounds : List (List ℚ)) (st : BoostState),
      (boostLoop esr tol rounds st).2 ≤ rounds.length := by
  intro rounds
  induction rounds with
  | nil => intro st; simp [boostLoop]
  | cons r rest ih =>
      intro st
      simp only [boostLoop, List.length_cons]
      split
      · simp
      · simpa using ih (boostRound tol r st)

/-- Helper: an early exit means the streak reached `early_stopping_rounds`. -/
theorem boostLoop_early_streak (esr : ℤ) (tol : ℚ) :
    ∀ (rounds : List (List ℚ)) (st : BoostState),
      (boostLoop esr tol rounds st).2 < rounds.length →
      esr ≤ ((boostLoop esr tol rounds st).1.no_change_run_length : ℤ) := by
  intro rounds
  induction rounds with
  | nil => intro st h; simp [boostLoop] at h
  | cons r rest ih =>
      intro st h
      simp only [boostLoop] at h ⊢
      by_cases hbrk : 0 ≤ esr ∧ esr ≤ ((boostRound tol r st).no_change_run_length : ℤ)
      · rw [if_pos hbrk] at h ⊢
        exact hbrk.2
      · rw [if_neg hbrk] at h ⊢
        simp only [List.length_cons] at h
        exact ih (boostRound tol r st) (by omega)

/-- Helper: if the entering streak is below `max esr 1`, the final streak is
at most `max esr 1` (it grows by at most one per round and the loop breaks as
soon as it reaches `esr`). -/
theorem boostLoop_streak_bound (esr : ℤ) (tol : ℚ) (hesr : 0 ≤ esr) :
    ∀ (rounds : List (List ℚ)) (st : BoostState),
      (st.no_change_run_length : ℤ) < max esr 1 →
      ((boostLoop esr tol rounds st).1.no_change_run_length : ℤ) ≤ max esr 1 := by
  intro rounds
  induction rounds with
  | nil => intro st h; simpa [boostLoop] using le_of_lt h
  | cons r rest ih =>
      intro st h
      have hstep : ((boostRound tol r st).no_change_run_length : ℤ) ≤ max esr 1 := by
        rcases boostRound_run_cases tol r st with hz | hs
        · rw [hz]; positivity
        · rw [hs]; push_cast; omega
      simp only [boostLoop]
      by_cases hbrk : 0 ≤ esr ∧ esr ≤ ((boostRound tol r st).no_change_run_length : ℤ)
      · rw [if_pos hbrk]
        exact hstep
      · rw [if_neg hbrk]
        refine ih (boostRound tol r st) ?_
        have hlt : ((boostRound tol r st).no_change_run_length : ℤ) < esr := by
          by_contra hc
          exact hbrk ⟨hesr, le_of_not_lt hc⟩
        exact lt_of_lt_of_le hlt (le_max_left esr 1)

/-- C7: in `cyclic_gradient_boost`, with `early_stopping_rounds < 0` the
round loop never breaks early and runs all `max_rounds` rounds; with
`early_stopping_rounds ≥ 0` it runs at most `max_rounds` rounds, leaves early
only once the no-improvement streak (reset exactly when the running minimum
metric plus the tolerance drops below the metric at the start of the streak)
has reached `early_stopping_rounds`, and the final streak length never
exceeds `max early_stopping_rounds 1` — the loop terminates within
`early_stopping_rounds` rounds of the streak start. -/
theorem cyclic_gradient_boost_early_stopping (esr : ℤ) (tol : ℚ)
    (rounds : List (List ℚ)) :
    (esr < 0 → (boostLoop esr tol rounds initBoostState).2 = rounds.length) ∧
    (0 ≤ esr →
      (boostLoop esr tol rounds initBoostState).2 ≤ rounds.length ∧
      ((boostLoop esr tol rounds initBoostState).2 < rounds.length →
        esr ≤ ((boostLoop esr tol rounds initBoostState).1.no_change_run_length : ℤ)) ∧
      ((boostLoop esr tol rounds initBoostState).1.no_change_run_length : ℤ) ≤
        max esr 1) := by
  refine ⟨fun h => boostLoop_neg_count esr tol h rounds initBoostState, fun h => ?_⟩
  refine ⟨boostLoop_count_le esr tol rounds initBoostState,
    boostLoop_early_streak esr tol rounds initBoostState, ?_⟩
  refine boostLoop_streak_bound esr tol h rounds initBoostState ?_
  simp only [initBoostState]
  positivity

/-- Witness for C7: a flat metric sequence runs to `max_rounds` when early
stopping is disabled and stops within the bound when it is enabled. -/
theorem cyclic_gradient_boost_early_stopping_witness :
    (boostLoop (-1) 0 [[(5:ℚ)], [5]] initBoostState).2 = 2 ∧
    (boostLoop 1 0 [[(5:ℚ)], [5]] initBoostState).2 ≤ 2 :=
  ⟨(cyclic_gradient_boost_early_stopping (-1) 0 [[(5:ℚ)], [5]]).1 (by norm_num),
   ((cyclic_gradient_boost_early_stopping 1 0 [[(5:ℚ)], [5]]).2 (by norm_num)).1⟩

/-- Helper: the greedy collapse emits one cut per emitted weight. -/
theorem greedyCollapse_length_eq (target : ℚ) :
    ∀ (l : List (ℚ × ℚ)) (c : ℚ),
      (greedyCollapse target l c).1.length =
        (greedyCollapse target l c).2.1.length := by
  intro l
  induction l with
  | nil => intro c; rfl
  | cons p rest ih =>
      intro c
      obtain ⟨w, e⟩ := p
      simp only [greedyCollapse]
      split
      · simp [ih 0]
      · exact ih (c + w)

/-- Helper: the greedy collapse emits at most one bin per bucket. -/
theorem greedyCollapse_count_le (target : ℚ) :
    ∀ (l : List (ℚ × ℚ)) (c : ℚ),
      (greedyCollapse target l c).2.1.length ≤ l.length := by
  intro l
  induction l with
  | nil => intro c; simp [greedyCollapse]
  | cons p rest ih =>
      intro c
      obtain ⟨w, e⟩ := p
      simp only [greedyCollapse, List.length_cons]
      split
      · simpa using ih 0
      · exact le_trans (ih (c + w)) (Nat.le_succ _)

/-- Helper: every emitted bin weight reached the target. -/
theorem greedyCollapse_weights_ge (target : ℚ) :
    ∀ (l : List (ℚ × ℚ)) (c : ℚ),
      ∀ x ∈ (greedyCollapse target l c).2.1, target ≤ x := by
  intro l
  induction l with
  | nil => intro c x hx; simp [greedyCollapse] at hx
  | cons p rest ih =>
      intro c x hx
      obtain ⟨w, e⟩ := p
      simp only [greedyCollapse] at hx
      by_cases hc : target ≤ c + w
      · rw [if_pos hc] at hx
        rcases List.mem_cons.mp hx with rfl | hx2
        · exact hc
        · exact ih 0 x hx2
      · rw [if_neg hc] at hx
        exact ih (c + w) x hx

/-- Helper: emitted weights plus the leftover account for all bucket mass. -/
theorem greedyCollapse_sum (target : ℚ) :
    ∀ (l : List (ℚ × ℚ)) (c : ℚ),
      (greedyCollapse target l c).2.1.sum + (greedyCollapse target l c).2.2 =
        c + (l.map Prod.fst).sum := by
  intro l
  induction l with
  | nil => intro c; simp [greedyCollapse]
  | cons p rest ih =>
      intro c
      obtain ⟨w, e⟩ := p
      simp only [greedyCollapse]
      by_cases hc : target ≤ c + w
      · rw [if_pos hc]
        have := ih 0
        simp only [List.map_cons, List.sum_cons]
        push_cast at this ⊢
        linarith [ih 0]
      · rw [if_neg hc]
        simp only [List.map_cons, List.sum_cons]
        rw [ih (c + w)]
        ring

/-- Helper: emitted cuts are a subsequence of the candidate right edges. -/
theorem greedyCollapse_cuts_sublist (target : ℚ) :
    ∀ (l : List (ℚ × ℚ)) (c : ℚ),
      (greedyCollapse target l c).1.Sublist (l.map Prod.snd) := by
  intro l
  induction l with
  | nil => intro c; simp [greedyCollapse]
  | cons p rest ih =>
      intro c
      obtain ⟨w, e⟩ := p
      simp only [greedyCollapse, List.map_cons]
      split
      · exact List.Sublist.cons₂ e (ih 0)
      · exact List.Sublist.cons e (ih (c + w))

/-- Helper: with non-negative bucket weights the leftover is non-negative. -/
theorem greedyCollapse_leftover_nonneg (target : ℚ) :
    ∀ (l : List (ℚ × ℚ)) (c : ℚ), 0 ≤ c → (∀ p ∈ l, 0 ≤ p.1) →
      0 ≤ (greedyCollapse target l c).2.2 := by
  intro l
  induction l with
  | nil => intro c hc _; exact hc
  | cons p rest ih =>
      intro c hc hl
      obtain ⟨w, e⟩ := p
      have hw : (0:ℚ) ≤ w := hl (w, e) (List.mem_cons_self _ _)
      simp only [greedyCollapse]
      split
      · exact ih 0 le_rfl fun q hq => hl q (List.mem_cons_of_mem _ hq)
      · exact ih (c + w) (by linarith) fun q hq => hl q (List.mem_cons_of_mem _ hq)

/-- Helper: the spec's fold-based threshold scan unfolds to the greedy
collapse with an accumulated prefix of boundaries. -/
theorem thresholdScan_foldl (target : ℚ) :
    ∀ (l : List (ℚ × ℚ)) (c : ℚ) (cs : List ℚ),
      (l.foldl
        (fun st p =>
          if target ≤ st.1 + p.1 then ((0:ℚ), st.2 ++ [p.2])
          else (st.1 + p.1, st.2)) (c, cs)).2 =
        cs ++ (greedyCollapse target l c).1 := by
  intro l
  induction l with
  | nil => intro c cs; simp [greedyCollapse]
  | cons p rest ih =>
      intro c cs
      obtain ⟨w, e⟩ := p
      simp only [List.foldl_cons, greedyCollapse]
      by_cases hc : target ≤ c + w
      · rw [if_pos hc, if_pos hc, ih 0 (cs ++ [e])]
        simp
      · rw [if_neg hc, if_neg hc, ih (c + w) cs]

/-- Helper: the spec's threshold scan equals the greedy collapse boundaries. -/
theorem thresholdScanCuts_eq_greedy (target : ℚ) (l : List (ℚ × ℚ)) :
    thresholdScanCuts target l = (greedyCollapse target l 0).1 := by
  unfold thresholdScanCuts
  simpa using thresholdScan_foldl target l 0 []

/-- Helper: sums over `(List.range n).map f` as `Finset.range` sums. -/
theorem list_range_map_sum (n : ℕ) (f : ℕ → ℚ) :
    ((List.range n).map f).sum = ∑ i ∈ Finset.range n, f i := by
  induction n with
  | zero => simp
  | succ n ih =>
      rw [List.range_succ]
      simp [List.sum_append, ih, Finset.sum_range_succ]

/-- Helper: bucketed weight sums never exceed the total pair weight. -/
theorem bucket_filter_sum_le (lo hi : ℚ) (B : ℕ) :
    ∀ (pairs : List (ℚ × ℚ)), (∀ p ∈ pairs, 0 ≤ p.2) →
      (∑ i ∈ Finset.range B,
        ((pairs.filter (fun p => bucketIdx lo hi B p.1 = some i)).map Prod.snd).sum) ≤
        (pairs.map Prod.snd).sum := by
  intro pairs
  induction pairs with
  | nil => intro _; simp
  | cons p rest ih =>
      intro hnn
      have hp : (0:ℚ) ≤ p.2 := hnn p (List.mem_cons_self _ _)
      have hih := ih fun q hq => hnn q (List.mem_cons_of_mem _ hq)
      have hstep : ∀ i ∈ Finset.range B,
          (((p :: rest).filter (fun q => bucketIdx lo hi B q.1 = some i)).map Prod.snd).sum =
          ((rest.filter (fun q => bucketIdx lo hi B q.1 = some i)).map Prod.snd).sum +
            (if bucketIdx lo hi B p.1 = some i then p.2 else 0) := by
        intro i _
        rw [List.filter_cons]
        by_cases hbi : bucketIdx lo hi B p.1 = some i
        · rw [if_pos (by simpa using hbi), if_pos hbi]
          simp [add_comm]
        · rw [if_neg (by simpa using hbi), if_neg hbi]
          simp
      rw [Finset.sum_congr rfl hstep, Finset.sum_add_distrib]
      have hite : (∑ i ∈ Finset.range B,
          (if bucketIdx lo hi B p.1 = some i then p.2 else 0)) ≤ p.2 := by
        cases hbi : bucketIdx lo hi B p.1 with
        | none => simp [hp]
        | some j =>
            have : ∀ i, (some j = some i) = (j = i) := by
              intro i
              simp
            simp only [hbi, this]
            rw [Finset.sum_ite_eq (Finset.range B) j (fun _ => p.2)]
            split
            · exact le_rfl
            · exact hp
      simp only [List.map_cons, List.sum_cons]
      linarith

/-- Helper: the histogram pair weights are non-negative for non-negative
sample weights. -/
theorem histPairs_snd_nonneg (col_data : List ℚ) (sample_weight : Option (List ℚ))
    (hsw : ∀ sw, sample_weight = some sw → ∀ w ∈ sw, 0 ≤ w) :
    ∀ p ∈ histPairs col_data sample_weight, 0 ≤ p.2 := by
  intro p hp
  cases sample_weight with
  | none =>
      simp only [histPairs, List.mem_map] at hp
      obtain ⟨x, -, rfl⟩ := hp
      norm_num
  | some sw =>
      simp only [histPairs] at hp
      exact hsw sw rfl p.2 (List.of_mem_zip hp).2

/-- Helper: the second components of a zip are a prefix of the second list. -/
theorem zip_map_snd_take (l1 : List ℚ) (l2 : List ℚ) :
    (l1.zip l2).map Prod.snd = l2.take l1.length := by
  induction l1 generalizing l2 with
  | nil => simp
  | cons x xs ih =>
      cases l2 with
      | nil => simp
      | cons y ys => simpa using ih ys

/-- Helper: the total pair weight is at most the total sample weight. -/
theorem histPairs_sum_le (col_data : List ℚ) (sample_weight : Option (List ℚ))
    (hsw : ∀ sw, sample_weight = some sw → ∀ w ∈ sw, 0 ≤ w) :
    ((histPairs col_data sample_weight).map Prod.snd).sum ≤
      sample_total col_data sample_weight := by
  cases sample_weight with
  | none =>
      simp only [histPairs, sample_total, List.map_map]
      have : (Prod.snd ∘ fun x => (x, (1:ℚ))) = Function.const ℚ (1:ℚ) := rfl
      rw [this, List.map_const, List.sum_replicate]
      simp
  | some sw =>
      simp only [histPairs, sample_total]
      rw [zip_map_snd_take col_data sw]
      have hdrop : (0:ℚ) ≤ (sw.drop col_data.length).sum :=
        List.sum_nonneg fun x hx =>
          hsw sw rfl x ((List.drop_sublist _ _).subset hx)
      have := List.sum_take_add_sum_drop sw col_data.length
      linarith

/-- Helper: histogram bucket totals are non-negative. -/
theorem histWeights_nonneg (col_data : List ℚ) (sample_weight : Option (List ℚ))
    (lo hi : ℚ) (B : ℕ)
    (hsw : ∀ sw, sample_weight = some sw → ∀ w ∈ sw, 0 ≤ w) :
    ∀ x ∈ histWeights col_data sample_weight lo hi B, 0 ≤ x := by
  intro x hx
  simp only [histWeights, List.mem_map] at hx
  obtain ⟨i, -, rfl⟩ := hx
  refine List.sum_nonneg ?_
  intro y hy
  simp only [List.mem_map] at hy
  obtain ⟨p, hp, rfl⟩ := hy
  exact histPairs_snd_nonneg col_data sample_weight hsw p (List.mem_of_mem_filter hp)

/-- Helper: histogram mass never exceeds the total sample weight. -/
theorem histWeights_sum_le (col_data : List ℚ) (sample_weight : Option (List ℚ))
    (lo hi : ℚ) (B : ℕ)
    (hsw : ∀ sw, sample_weight = some sw → ∀ w ∈ sw, 0 ≤ w) :
    (histWeights col_data sample_weight lo hi B).sum ≤
      sample_total col_data sample_weight := by
  rw [histWeights, list_range_map_sum]
  exact le_trans
    (bucket_filter_sum_le lo hi B _ (histPairs_snd_nonneg col_data sample_weight hsw))
    (histPairs_sum_le col_data sample_weight hsw)

/-- Helper: dropping the last element and adding it back preserves the sum. -/
theorem sum_dropLast_getLastD (l : List ℚ) (h : l ≠ []) :
    l.dropLast.sum + l.getLastD 0 = l.sum := by
  have hD : l.getLastD 0 = l.getLast h := by
    rw [List.getLastD_eq_getLast?, List.getLast?_eq_getLast l h]
    rfl
  conv_rhs => rw [← List.dropLast_append_getLast h]
  rw [hD, List.sum_append]
  simp

/-- Helper: the last element (with default) of a nonempty list is in it. -/
theorem getLastD_mem (l : List ℚ) (h : l ≠ []) : l.getLastD 0 ∈ l := by
  have hD : l.getLastD 0 = l.getLast h := by
    rw [List.getLastD_eq_getLast?, List.getLast?_eq_getLast l h]
    rfl
  rw [hD]
  exact List.getLast_mem h

/-- Helper: the clip is never negative. -/
theorem clip0_nonneg (x : ℚ) : 0 ≤ clip0 x := by
  unfold clip0
  split
  · exact le_rfl
  · exact le_of_not_lt (by assumption)

/-- Helper: the clip is the identity on non-negatives. -/
theorem clip0_of_nonneg (x : ℚ) (h : 0 ≤ x) : clip0 x = x := by
  unfold clip0
  rw [if_neg (not_lt.mpr h)]

/-- Helper: clipping a non-negative list does nothing. -/
theorem map_clip0_of_nonneg (l : List ℚ) (h : ∀ x ∈ l, 0 ≤ x) :
    l.map clip0 = l := by
  induction l with
  | nil => rfl
  | cons x xs ih =>
      rw [List.map_cons, clip0_of_nonneg x (h x (List.mem_cons_self _ _)),
        ih fun y hy => h y (List.mem_cons_of_mem _ hy)]

/-- Helper: adding a zero noise draw changes nothing. -/
theorem zipWith_add_replicate_zero (l : List ℚ) (n : ℕ) (h : l.length ≤ n) :
    List.zipWith (· + ·) l (List.replicate n (0:ℚ)) = l := by
  induction l generalizing n with
  | nil => simp
  | cons x xs ih =>
      cases n with
      | zero => simp at h
      | succ m =>
          simp only [List.replicate_succ, List.zipWith_cons_cons, add_zero]
          rw [ih m (by simpa using h)]

/-- Helper: length of the noisy clipped bucket vector. -/
theorem noisyClippedWeights_length (col_data : List ℚ)
    (sample_weight : Option (List ℚ)) (noise : List ℚ) (max_bins : ℕ)
    (min_val max_val : ℚ) :
    (noisyClippedWeights col_data sample_weight noise max_bins min_val max_val).length =
      min (max_bins * 2) noise.length := by
  simp [noisyClippedWeights, List.length_zipWith, histWeights]

/-- Helper: the noisy clipped bucket weights are non-negative. -/
theorem noisyClippedWeights_nonneg (col_data : List ℚ)
    (sample_weight : Option (List ℚ)) (noise : List ℚ) (max_bins : ℕ)
    (min_val max_val : ℚ) :
    ∀ x ∈ noisyClippedWeights col_data sample_weight noise max_bins min_val max_val,
      0 ≤ x := by
  intro x hx
  simp only [noisyClippedWeights, List.mem_map] at hx
  obtain ⟨y, -, rfl⟩ := hx
  exact clip0_nonneg y

/-- Helper: the total sample weight is non-negative. -/
theorem sample_total_nonneg (col_data : List ℚ) (sample_weight : Option (List ℚ))
    (hsw : ∀ sw, sample_weight = some sw → ∀ w ∈ sw, 0 ≤ w) :
    0 ≤ sample_total col_data sample_weight := by
  cases sample_weight with
  | none => simp [sample_total]
  | some sw => exact List.sum_nonneg fun x hx => hsw sw rfl x hx

/-- Helper: a list of elements each at least `a` sums to at least
`length * a`. -/
theorem length_mul_le_sum (l : List ℚ) (a : ℚ) (h : ∀ x ∈ l, a ≤ x) :
    (l.length : ℚ) * a ≤ l.sum := by
  induction l with
  | nil => simp
  | cons x xs ih =>
      have hx := h x (List.mem_cons_self _ _)
      have hxs := ih fun y hy => h y (List.mem_cons_of_mem _ hy)
      simp only [List.length_cons, List.sum_cons]
      push_cast
      linarith

/-- Helper: number of histogram edges. -/
theorem histEdges_length (lo hi : ℚ) (n : ℕ) :
    (histEdges lo hi n).length = n + 1 := by
  rw [histEdges, List.length_map, List.length_range]

/-- Helper: mapping a strictly monotone function over a range is sorted. -/
theorem sorted_map_range (f : ℕ → ℚ) (n : ℕ)
    (hf : ∀ a b : ℕ, a < b → f a < f b) :
    List.Sorted (· < ·) ((List.range n).map f) := by
  rw [List.Sorted, List.pairwise_map]
  exact (List.pairwise_lt_range n).imp fun h => hf _ _ h

/-- Helper: the histogram edges are strictly increasing. -/
theorem histEdges_sorted (lo hi : ℚ) (n : ℕ) (hlh : lo < hi) (hn : 0 < n) :
    List.Sorted (· < ·) (histEdges lo hi n) := by
  rw [histEdges]
  refine sorted_map_range _ _ ?_
  intro a b hab
  have hd : (0:ℚ) < hi - lo := by linarith
  have hnq : (0:ℚ) < (n : ℚ) := by exact_mod_cast hn
  have hcast : (a:ℚ) < (b:ℚ) := by exact_mod_cast hab
  have h1 : (a:ℚ) * (hi - lo) < (b:ℚ) * (hi - lo) :=
    mul_lt_mul_of_pos_right hcast hd
  have h2 : (a:ℚ) * (hi - lo) / n < (b:ℚ) * (hi - lo) / n :=
    div_lt_div_of_pos_right h1 hnq
  linarith

/-- Helper: `private_numeric_binning` in the degenerate branch where no bin
reached the target. -/
theorem private_numeric_binning_degenerate (col_data : List ℚ)
    (sample_weight : Option (List ℚ)) (noise : List ℚ) (max_bins : ℕ)
    (min_val max_val : ℚ)
    (h : (greedyCollapse (sample_total col_data sample_weight / (max_bins : ℚ))
        ((noisyClippedWeights col_data sample_weight noise max_bins min_val max_val).zip
          (histEdges min_val max_val (max_bins * 2)).tail) 0).2.1 = []) :
    private_numeric_binning col_data sample_weight noise max_bins min_val max_val =
      ([], [0, sample_total col_data sample_weight / (max_bins : ℚ)]) := by
  simp only [private_numeric_binning]
  rw [if_pos (by rw [h]; rfl)]

/-- Helper: `private_numeric_binning` in the main branch. -/
theorem private_numeric_binning_main (col_data : List ℚ)
    (sample_weight : Option (List ℚ)) (noise : List ℚ) (max_bins : ℕ)
    (min_val max_val : ℚ)
    (h : (greedyCollapse (sample_total col_data sample_weight / (max_bins : ℚ))
        ((noisyClippedWeights col_data sample_weight noise max_bins min_val max_val).zip
          (histEdges min_val max_val (max_bins * 2)).tail) 0).2.1 ≠ []) :
    private_numeric_binning col_data sample_weight noise max_bins min_val max_val =
      ((greedyCollapse (sample_total col_data sample_weight / (max_bins : ℚ))
          ((noisyClippedWeights col_data sample_weight noise max_bins min_val max_val).zip
            (histEdges min_val max_val (max_bins * 2)).tail) 0).1.dropLast,
        0 :: ((greedyCollapse (sample_total col_data sample_weight / (max_bins : ℚ))
          ((noisyClippedWeights col_data sample_weight noise max_bins min_val max_val).zip
            (histEdges min_val max_val (max_bins * 2)).tail) 0).2.1.dropLast ++
          [(greedyCollapse (sample_total col_data sample_weight / (max_bins : ℚ))
            ((noisyClippedWeights col_data sample_weight noise max_bins min_val max_val).zip
              (histEdges min_val max_val (max_bins * 2)).tail) 0).2.1.getLastD 0 +
            (greedyCollapse (sample_total col_data sample_weight / (max_bins : ℚ))
              ((noisyClippedWeights col_data sample_weight noise max_bins min_val max_val).zip
                (histEdges min_val max_val (max_bins * 2)).tail) 0).2.2])) := by
  simp only [private_numeric_binning]
  rw [if_neg fun hc => h (List.length_eq_zero.mp hc)]

/-- C4 (amended): for every noise draw `private_numeric_binning` returns
non-negative bin weights; whenever the greedy collapse emitted at least one
bin the weights sum exactly to the sum of the noise-perturbed zero-clipped
bucket counts, while in the degenerate case where no accumulated weight
reached the target the result is forced to cuts `[]` and weights
`[0, target]` (so there the sum is the target floor, not the clipped total);
and with the noise draw fixed to zero the greedy collapse emits exactly the
boundaries of the spec's deterministic threshold-crossing scan with
threshold `total / max_bins` on the raw histogram. -/
theorem private_numeric_binning_spec (col_data : List ℚ)
    (sample_weight : Option (List ℚ)) (noise : List ℚ) (max_bins : ℕ)
    (min_val max_val : ℚ)
    (hsw : ∀ sw, sample_weight = some sw → ∀ w ∈ sw, 0 ≤ w)
    (hnl : noise.length = max_bins * 2) :
    (∀ b ∈ (private_numeric_binning col_data sample_weight noise max_bins min_val max_val).2,
      0 ≤ b) ∧
    ((greedyCollapse (sample_total col_data sample_weight / (max_bins : ℚ))
        ((noisyClippedWeights col_data sample_weight noise max_bins min_val max_val).zip
          (histEdges min_val max_val (max_bins * 2)).tail) 0).2.1 ≠ [] →
      (private_numeric_binning col_data sample_weight noise max_bins min_val max_val).2.sum =
        (noisyClippedWeights col_data sample_weight noise max_bins min_val max_val).sum) ∧
    ((greedyCollapse (sample_total col_data sample_weight / (max_bins : ℚ))
        ((noisyClippedWeights col_data sample_weight noise max_bins min_val max_val).zip
          (histEdges min_val max_val (max_bins * 2)).tail) 0).2.1 = [] →
      private_numeric_binning col_data sample_weight noise max_bins min_val max_val =
        ([], [0, sample_total col_data sample_weight / (max_bins : ℚ)])) ∧
    (noise = List.replicate (max_bins * 2) 0 →
      (greedyCollapse (sample_total col_data sample_weight / (max_bins : ℚ))
        ((noisyClippedWeights col_data sample_weight noise max_bins min_val max_val).zip
          (histEdges min_val max_val (max_bins * 2)).tail) 0).1 =
        thresholdScanCuts (sample_total col_data sample_weight / (max_bins : ℚ))
          ((histWeights col_data sample_weight min_val max_val (max_bins * 2)).zip
            (histEdges min_val max_val (max_bins * 2)).tail)) := by
  have hlen : (noisyClippedWeights col_data sample_weight noise max_bins min_val max_val).length =
      max_bins * 2 := by
    rw [noisyClippedWeights_length, hnl, min_self]
  have htaillen : (histEdges min_val max_val (max_bins * 2)).tail.length = max_bins * 2 := by
    rw [List.length_tail, histEdges_length]
    omega
  have hfst : (((noisyClippedWeights col_data sample_weight noise max_bins min_val max_val).zip
      (histEdges min_val max_val (max_bins * 2)).tail)).map Prod.fst =
      noisyClippedWeights col_data sample_weight noise max_bins min_val max_val :=
    List.map_fst_zip _ _ (by rw [hlen, htaillen])
  have hfstnn : ∀ p ∈ (noisyClippedWeights col_data sample_weight noise max_bins min_val max_val).zip
      (histEdges min_val max_val (max_bins * 2)).tail, 0 ≤ p.1 := by
    intro p hp
    have hm : p.1 ∈ (((noisyClippedWeights col_data sample_weight noise max_bins min_val max_val).zip
        (histEdges min_val max_val (max_bins * 2)).tail)).map Prod.fst :=
      List.mem_map_of_mem Prod.fst hp
    rw [hfst] at hm
    exact noisyClippedWeights_nonneg _ _ _ _ _ _ _ hm
  have htnn : 0 ≤ sample_total col_data sample_weight / (max_bins : ℚ) :=
    div_nonneg (sample_total_nonneg _ _ hsw) (by positivity)
  refine ⟨?_, ?_, ?_, ?_⟩
  · intro b hb
    by_cases hdeg : (greedyCollapse (sample_total col_data sample_weight / (max_bins : ℚ))
        ((noisyClippedWeights col_data sample_weight noise max_bins min_val max_val).zip
          (histEdges min_val max_val (max_bins * 2)).tail) 0).2.1 = []
    · rw [private_numeric_binning_degenerate _ _ _ _ _ _ hdeg] at hb
      rcases List.mem_cons.mp hb with rfl | hb2
      · exact le_rfl
      · simp only [List.mem_singleton] at hb2
        subst hb2
        exact htnn
    · rw [private_numeric_binning_main _ _ _ _ _ _ hdeg] at hb
      rcases List.mem_cons.mp hb with rfl | hb2
      · exact le_rfl
      rcases List.mem_append.mp hb2 with hbd | hbl
      · have := greedyCollapse_weights_ge _ _ 0 b ((List.dropLast_sublist _).subset hbd)
        linarith
      · simp only [List.mem_singleton] at hbl
        subst hbl
        have h1 := greedyCollapse_weights_ge _ _ 0 _ (getLastD_mem _ hdeg)
        have h2 := greedyCollapse_leftover_nonneg
          (sample_total col_data sample_weight / (max_bins : ℚ)) _ 0 le_rfl hfstnn
        linarith
  · intro hne
    rw [private_numeric_binning_main _ _ _ _ _ _ hne]
    simp only [List.sum_cons, List.sum_append, List.sum_nil]
    have hs := sum_dropLast_getLastD _ hne
    have hg := greedyCollapse_sum (sample_total col_data sample_weight / (max_bins : ℚ))
      ((noisyClippedWeights col_data sample_weight noise max_bins min_val max_val).zip
        (histEdges min_val max_val (max_bins * 2)).tail) 0
    rw [hfst] at hg
    linarith
  · intro hdeg
    exact private_numeric_binning_degenerate _ _ _ _ _ _ hdeg
  · intro hz
    have hWlen : (histWeights col_data sample_weight min_val max_val (max_bins * 2)).length =
        max_bins * 2 := by
      rw [histWeights, List.length_map, List.length_range]
    have huni : noisyClippedWeights col_data sample_weight noise max_bins min_val max_val =
        histWeights col_data sample_weight min_val max_val (max_bins * 2) := by
      simp only [noisyClippedWeights]
      rw [hz, zipWith_add_replicate_zero _ _ (le_of_eq hWlen),
        map_clip0_of_nonneg _ (histWeights_nonneg _ _ _ _ _ hsw)]
    rw [huni, thresholdScanCuts_eq_greedy]

/-- Witness for C4: with a zero noise draw on one sample the greedy collapse
boundaries agree with the spec's threshold scan. -/
theorem private_numeric_binning_spec_witness :
    (greedyCollapse (sample_total [(2:ℚ)] none / ((2:ℕ) : ℚ))
        ((noisyClippedWeights [(2:ℚ)] none [0, 0, 0, 0] 2 0 4).zip
          (histEdges 0 4 (2 * 2)).tail) 0).1 =
      thresholdScanCuts (sample_total [(2:ℚ)] none / ((2:ℕ) : ℚ))
        ((histWeights [(2:ℚ)] none 0 4 (2 * 2)).zip (histEdges 0 4 (2 * 2)).tail) :=
  (private_numeric_binning_spec [(2:ℚ)] none [0, 0, 0, 0] 2 0 4
    (fun sw h => by cases h) (by norm_num)).2.2.2 rfl

/-- Counterexample for C4 as frozen: a noise draw that clips every bucket
to zero forces the degenerate single bin, whose weight is the target floor
`1/2`, so the returned weights sum to `1/2` while the noise-perturbed,
zero-clipped bucket counts sum to `0`. -/
theorem private_numeric_binning_sum_counterexample :
    (private_numeric_binning [(2:ℚ)] none [-5, -5, -5, -5] 2 0 4).2.sum = 1/2 ∧
    (noisyClippedWeights [(2:ℚ)] none [-5, -5, -5, -5] 2 0 4).sum = 0 ∧
    ((1:ℚ)/2) ≠ 0 := by
  have hr : List.range 4 = [0, 1, 2, 3] := rfl
  have hr5 : List.range 5 = [0, 1, 2, 3, 4] := rfl
  have ht : (2:ℤ).toNat = 2 := rfl
  have hW : histWeights [(2:ℚ)] none 0 4 (2 * 2) = [0, 0, 1, 0] := by
    norm_num [histWeights, histPairs, hr, bucketIdx, List.filter, ht]
  have hN : noisyClippedWeights [(2:ℚ)] none [-5, -5, -5, -5] 2 0 4 = [0, 0, 0, 0] := by
    rw [noisyClippedWeights, hW]
    norm_num [clip0]
  refine ⟨?_, ?_, by norm_num⟩
  · rw [private_numeric_binning, hN]
    norm_num [histEdges, hr5, greedyCollapse, sample_total]
  · rw [hN]
    norm_num

/-- C5 (amended): `private_numeric_binning` returns strictly increasing cuts
(hence finite, being exact rationals built from the finite public bounds)
numbering at most `2*max_bins - 1` for every noise draw, and at most
`max_bins - 1` when the noise draw is zero; the quantile / humanized /
uniform modes (native code, modelled from the spec) return strictly
increasing cuts numbering at most `max_bins - 2`.  The frozen bound
`max_bins - 2` does not hold for the private mode. -/
theorem continuous_cut_bounds (col_data : List ℚ)
    (sample_weight : Option (List ℚ)) (noise : List ℚ) (max_bins : ℕ)
    (min_val max_val : ℚ)
    (hb : 1 ≤ max_bins) (hlohi : min_val < max_val)
    (hnl : noise.length = max_bins * 2)
    (hsw : ∀ sw, sample_weight = some sw → ∀ w ∈ sw, 0 ≤ w) :
    List.Sorted (· < ·)
      (private_numeric_binning col_data sample_weight noise max_bins min_val max_val).1 ∧
    (private_numeric_binning col_data sample_weight noise max_bins min_val max_val).1.length + 1 ≤
      max_bins * 2 ∧
    (noise = List.replicate (max_bins * 2) 0 →
      0 < sample_total col_data sample_weight →
      (private_numeric_binning col_data sample_weight noise max_bins min_val max_val).1.length + 1 ≤
        max_bins) ∧
    List.Sorted (· < ·) (cut_uniform_spec min_val max_val max_bins) ∧
    (cut_uniform_spec min_val max_val max_bins).length ≤ max_bins - 2 ∧
    List.Sorted (· < ·) (cut_quantile_spec col_data max_bins) ∧
    (cut_quantile_spec col_data max_bins).length ≤ max_bins - 2 := by
  have hlen : (noisyClippedWeights col_data sample_weight noise max_bins min_val max_val).length =
      max_bins * 2 := by
    rw [noisyClippedWeights_length, hnl, min_self]
  have htaillen : (histEdges min_val max_val (max_bins * 2)).tail.length = max_bins * 2 := by
    rw [List.length_tail, histEdges_length]
    omega
  have hsnd : (((noisyClippedWeights col_data sample_weight noise max_bins min_val max_val).zip
      (histEdges min_val max_val (max_bins * 2)).tail)).map Prod.snd =
      (histEdges min_val max_val (max_bins * 2)).tail :=
    List.map_snd_zip _ _ (by rw [hlen, htaillen])
  have hpairslen : (((noisyClippedWeights col_data sample_weight noise max_bins min_val max_val).zip
      (histEdges min_val max_val (max_bins * 2)).tail)).length = max_bins * 2 := by
    rw [List.length_zip, hlen, htaillen, min_self]
  have hedgessorted : List.Sorted (· < ·) (histEdges min_val max_val (max_bins * 2)) :=
    histEdges_sorted min_val max_val (max_bins * 2) hlohi (by omega)
  have hcutsub : (greedyCollapse (sample_total col_data sample_weight / (max_bins : ℚ))
      ((noisyClippedWeights col_data sample_weight noise max_bins min_val max_val).zip
        (histEdges min_val max_val (max_bins * 2)).tail) 0).1.Sublist
      (histEdges min_val max_val (max_bins * 2)) := by
    have h1 := greedyCollapse_cuts_sublist
      (sample_total col_data sample_weight / (max_bins : ℚ))
      ((noisyClippedWeights col_data sample_weight noise max_bins min_val max_val).zip
        (histEdges min_val max_val (max_bins * 2)).tail) 0
    rw [hsnd] at h1
    exact List.Sublist.trans h1 (List.tail_sublist _)
  have hwlen : (greedyCollapse (sample_total col_data sample_weight / (max_bins : ℚ))
      ((noisyClippedWeights col_data sample_weight noise max_bins min_val max_val).zip
        (histEdges min_val max_val (max_bins * 2)).tail) 0).2.1.length ≤ max_bins * 2 := by
    have h2 := greedyCollapse_count_le
      (sample_total col_data sample_weight / (max_bins : ℚ))
      ((noisyClippedWeights col_data sample_weight noise max_bins min_val max_val).zip
        (histEdges min_val max_val (max_bins * 2)).tail) 0
    rw [hpairslen] at h2
    exact h2
  have hcuteq : (greedyCollapse (sample_total col_data sample_weight / (max_bins : ℚ))
      ((noisyClippedWeights col_data sample_weight noise max_bins min_val max_val).zip
        (histEdges min_val max_val (max_bins * 2)).tail) 0).1.length =
      (greedyCollapse (sample_total col_data sample_weight / (max_bins : ℚ))
      ((noisyClippedWeights col_data sample_weight noise max_bins min_val max_val).zip
        (histEdges min_val max_val (max_bins * 2)).tail) 0).2.1.length :=
    greedyCollapse_length_eq _ _ 0
  refine ⟨?_, ?_, ?_, ?_, ?_, ?_, ?_⟩
  · by_cases hdeg : (greedyCollapse (sample_total col_data sample_weight / (max_bins : ℚ))
        ((noisyClippedWeights col_data sample_weight noise max_bins min_val max_val).zip
          (histEdges min_val max_val (max_bins * 2)).tail) 0).2.1 = []
    · rw [private_numeric_binning_degenerate _ _ _ _ _ _ hdeg]
      exact List.sorted_nil
    · rw [private_numeric_binning_main _ _ _ _ _ _ hdeg]
      exact List.Pairwise.sublist
        (List.Sublist.trans (List.dropLast_sublist _) hcutsub) hedgessorted
  · by_cases hdeg : (greedyCollapse (sample_total col_data sample_weight / (max_bins : ℚ))
        ((noisyClippedWeights col_data sample_weight noise max_bins min_val max_val).zip
          (histEdges min_val max_val (max_bins * 2)).tail) 0).2.1 = []
    · rw [private_numeric_binning_degenerate _ _ _ _ _ _ hdeg]
      simpa using by omega
    · rw [private_numeric_binning_main _ _ _ _ _ _ hdeg]
      rw [List.length_dropLast]
      omega
  · intro hz htot
    have hWlen : (histWeights col_data sample_weight min_val max_val (max_bins * 2)).length =
        max_bins * 2 := by
      rw [histWeights, List.length_map, List.length_range]
    have huni : noisyClippedWeights col_data sample_weight noise max_bins min_val max_val =
        histWeights col_data sample_weight min_val max_val (max_bins * 2) := by
      simp only [noisyClippedWeights]
      rw [hz, zipWith_add_replicate_zero _ _ (le_of_eq hWlen),
        map_clip0_of_nonneg _ (histWeights_nonneg _ _ _ _ _ hsw)]
    have hmbpos : (0:ℚ) < (max_bins : ℚ) := by
      have : (0:ℕ) < max_bins := by omega
      exact_mod_cast this
    have htgtpos : 0 < sample_total col_data sample_weight / (max_bins : ℚ) :=
      div_pos htot hmbpos
    have hge := greedyCollapse_weights_ge
      (sample_total col_data sample_weight / (max_bins : ℚ))
      ((noisyClippedWeights col_data sample_weight noise max_bins min_val max_val).zip
        (histEdges min_val max_val (max_bins * 2)).tail) 0
    have hmul := length_mul_le_sum _ _ hge
    have hfst : (((noisyClippedWeights col_data sample_weight noise max_bins min_val max_val).zip
        (histEdges min_val max_val (max_bins * 2)).tail)).map Prod.fst =
        noisyClippedWeights col_data sample_weight noise max_bins min_val max_val :=
      List.map_fst_zip _ _ (by rw [hlen, htaillen])
    have hfstnn : ∀ p ∈ (noisyClippedWeights col_data sample_weight noise max_bins min_val max_val).zip
        (histEdges min_val max_val (max_bins * 2)).tail, 0 ≤ p.1 := by
      intro p hp
      have hm : p.1 ∈ (((noisyClippedWeights col_data sample_weight noise max_bins min_val max_val).zip
          (histEdges min_val max_val (max_bins * 2)).tail)).map Prod.fst :=
        List.mem_map_of_mem Prod.fst hp
      rw [hfst] at hm
      exact noisyClippedWeights_nonneg _ _ _ _ _ _ _ hm
    have hsum := greedyCollapse_sum (sample_total col_data sample_weight / (max_bins : ℚ))
      ((noisyClippedWeights col_data sample_weight noise max_bins min_val max_val).zip
        (histEdges min_val max_val (max_bins * 2)).tail) 0
    rw [hfst] at hsum
    have hleft := greedyCollapse_leftover_nonneg
      (sample_total col_data sample_weight / (max_bins : ℚ))
      ((noisyClippedWeights col_data sample_weight noise max_bins min_val max_val).zip
        (histEdges min_val max_val (max_bins * 2)).tail) 0 le_rfl hfstnn
    have hWsum : (noisyClippedWeights col_data sample_weight noise max_bins min_val max_val).sum ≤
        sample_total col_data sample_weight := by
      rw [huni]
      exact histWeights_sum_le _ _ _ _ _ hsw
    have htotsplit : sample_total col_data sample_weight =
        (max_bins : ℚ) * (sample_total col_data sample_weight / (max_bins : ℚ)) := by
      field_simp
    have hkle : ((greedyCollapse (sample_total col_data sample_weight / (max_bins : ℚ))
        ((noisyClippedWeights col_data sample_weight noise max_bins min_val max_val).zip
          (histEdges min_val max_val (max_bins * 2)).tail) 0).2.1.length : ℚ) ≤
        (max_bins : ℚ) := by
      have hchain : ((greedyCollapse (sample_total col_data sample_weight / (max_bins : ℚ))
          ((noisyClippedWeights col_data sample_weight noise max_bins min_val max_val).zip
            (histEdges min_val max_val (max_bins * 2)).tail) 0).2.1.length : ℚ) *
          (sample_total col_data sample_weight / (max_bins : ℚ)) ≤
          (max_bins : ℚ) * (sample_total col_data sample_weight / (max_bins : ℚ)) := by
        calc _ ≤ (greedyCollapse (sample_total col_data sample_weight / (max_bins : ℚ))
            ((noisyClippedWeights col_data sample_weight noise max_bins min_val max_val).zip
              (histEdges min_val max_val (max_bins * 2)).tail) 0).2.1.sum := hmul
          _ ≤ sample_total col_data sample_weight := by linarith
          _ = _ := htotsplit
      exact le_of_mul_le_mul_right hchain htgtpos
    have hkleN : (greedyCollapse (sample_total col_data sample_weight / (max_bins : ℚ))
        ((noisyClippedWeights col_data sample_weight noise max_bins min_val max_val).zip
          (histEdges min_val max_val (max_bins * 2)).tail) 0).2.1.length ≤ max_bins := by
      exact_mod_cast hkle
    by_cases hdeg : (greedyCollapse (sample_total col_data sample_weight / (max_bins : ℚ))
        ((noisyClippedWeights col_data sample_weight noise max_bins min_val max_val).zip
          (histEdges min_val max_val (max_bins * 2)).tail) 0).2.1 = []
    · rw [private_numeric_binning_degenerate _ _ _ _ _ _ hdeg]
      simpa using by omega
    · rw [private_numeric_binning_main _ _ _ _ _ _ hdeg]
      rw [List.length_dropLast]
      have hne : (greedyCollapse (sample_total col_data sample_weight / (max_bins : ℚ))
          ((noisyClippedWeights col_data sample_weight noise max_bins min_val max_val).zip
            (histEdges min_val max_val (max_bins * 2)).tail) 0).2.1.length ≠ 0 :=
        fun hc => hdeg (List.length_eq_zero.mp hc)
      omega
  · rcases Nat.lt_or_ge max_bins 3 with h3 | h3
    · have h0 : max_bins - 2 = 0 := by omega
      unfold cut_uniform_spec
      rw [if_pos hlohi, h0]
      exact List.sorted_nil
    · unfold cut_uniform_spec
      rw [if_pos hlohi]
      refine sorted_map_range _ _ ?_
      intro a b hab
      have hd : (0:ℚ) < max_val - min_val := by linarith
      have hm1 : (0:ℚ) < (max_bins : ℚ) - 1 := by
        have : (3:ℚ) ≤ (max_bins : ℚ) := by exact_mod_cast h3
        linarith
      have hcast : (a:ℚ) + 1 < (b:ℚ) + 1 := by
        have : (a:ℚ) < (b:ℚ) := by exact_mod_cast hab
        linarith
      have h1 : ((a:ℚ) + 1) * (max_val - min_val) < ((b:ℚ) + 1) * (max_val - min_val) :=
        mul_lt_mul_of_pos_right hcast hd
      have h2 := div_lt_div_of_pos_right h1 hm1
      linarith
  · unfold cut_uniform_spec
    split
    · rw [List.length_map, List.length_range]
    · simp
  · have hsle : List.Sorted (· ≤ ·) ((col_data.insertionSort (· ≤ ·)).dedup) :=
      List.Pairwise.sublist (List.dedup_sublist _)
        (List.sorted_insertionSort (· ≤ ·) col_data)
    have hslt : List.Sorted (· < ·) ((col_data.insertionSort (· ≤ ·)).dedup) :=
      hsle.lt_of_le (List.nodup_dedup _)
    unfold cut_quantile_spec
    exact List.Pairwise.sublist
      (List.Sublist.trans (List.take_sublist _ _) (List.drop_sublist _ _)) hslt
  · unfold cut_quantile_spec
    rw [List.length_take]
    exact min_le_left _ _

/-- Witness for C5: a concrete uniform data column with zero noise respects
the private-mode cut bound. -/
theorem continuous_cut_bounds_witness :
    (private_numeric_binning [(2:ℚ)] none [1, 1, 1, 1] 2 0 4).1.length + 1 ≤ 2 * 2 :=
  (continuous_cut_bounds [(2:ℚ)] none [1, 1, 1, 1] 2 0 4 (by norm_num) (by norm_num)
    (by norm_num) (fun sw h => by cases h)).2.1

/-- Counterexample for C5 as frozen: four unit-weight samples, `max_bins = 2`
and a zero noise draw make `private_numeric_binning` return one cut, which
exceeds the claimed bound `max_bins - 2 = 0`. -/
theorem private_numeric_cut_count_counterexample :
    (private_numeric_binning [1/2, 3/2, 5/2, 7/2] none [0, 0, 0, 0] 2 0 4).1.length = 1 ∧
    ¬ ((private_numeric_binning [1/2, 3/2, 5/2, 7/2] none [0, 0, 0, 0] 2 0 4).1.length ≤
      2 - 2) := by
  have hr : List.range 4 = [0, 1, 2, 3] := rfl
  have hr5 : List.range 5 = [0, 1, 2, 3, 4] := rfl
  have ht0 : (0:ℤ).toNat = 0 := rfl
  have ht1 : (1:ℤ).toNat = 1 := rfl
  have ht2 : (2:ℤ).toNat = 2 := rfl
  have ht3 : (3:ℤ).toNat = 3 := rfl
  have hlen1 : (private_numeric_binning [1/2, 3/2, 5/2, 7/2] none [0, 0, 0, 0] 2 0 4).1.length = 1 := by
    have hW : histWeights [(1:ℚ)/2, 3/2, 5/2, 7/2] none 0 4 (2 * 2) = [1, 1, 1, 1] := by
      norm_num [histWeights, histPairs, hr, bucketIdx, List.filter, ht0, ht1, ht2, ht3]
    have hN : noisyClippedWeights [(1:ℚ)/2, 3/2, 5/2, 7/2] none [0, 0, 0, 0] 2 0 4 =
        [1, 1, 1, 1] := by
      rw [noisyClippedWeights, hW]
      norm_num [clip0]
    rw [private_numeric_binning, hN]
    norm_num [histEdges, hr5, greedyCollapse, sample_total]
  exact ⟨hlen1, by omega⟩

/-- Helper: map-sum of a pointwise difference. -/
theorem sum_map_sub_q {α : Type} (l : List α) (f g : α → ℚ) :
    (l.map (fun x => f x - g x)).sum = (l.map f).sum - (l.map g).sum := by
  induction l with
  | nil => simp
  | cons x xs ih =>
      simp only [List.map_cons, List.sum_cons, ih]
      ring

/-- Helper: map-sums agree when the functions agree on the list. -/
theorem sum_map_congr {α : Type} (l : List α) (f g : α → ℚ)
    (h : ∀ x ∈ l, f x = g x) : (l.map f).sum = (l.map g).sum := by
  rw [List.map_congr_left h]

/-- Helper: a non-negative list summing to zero is pointwise zero. -/
theorem mem_eq_zero_of_sum_zero (l : List ℚ) (hnn : ∀ x ∈ l, 0 ≤ x)
    (hz : l.sum = 0) : ∀ x ∈ l, x = 0 := by
  induction l with
  | nil => simp
  | cons y ys ih =>
      intro x hx
      have hy : 0 ≤ y := hnn y (List.mem_cons_self _ _)
      have hys : 0 ≤ ys.sum :=
        List.sum_nonneg fun z hz2 => hnn z (List.mem_cons_of_mem _ hz2)
      simp only [List.sum_cons] at hz
      rcases List.mem_cons.mp hx with rfl | hx2
      · linarith
      · exact ih (fun z hz2 => hnn z (List.mem_cons_of_mem _ hz2)) (by linarith) x hx2

/-- Helper: a multi-index zeroed by the restoration step carries zero
weight, because it lies on an edge slice whose non-negative weights sum to
zero. -/
theorem zeroedIdx_weight_zero (shape : List ℕ) (w : List ℕ → ℚ) (i : List ℕ)
    (hi : i ∈ allIdx shape) (hw : ∀ j ∈ allIdx shape, 0 ≤ w j)
    (hz : zeroedIdx shape w i = true) : w i = 0 := by
  unfold zeroedIdx at hz
  rw [List.any_eq_true] at hz
  obtain ⟨d, -, hd⟩ := hz
  rw [Bool.or_eq_true, Bool.and_eq_true, Bool.and_eq_true] at hd
  have key : ∀ k, sliceSum shape w d k = 0 → i.getD d 0 = k → w i = 0 := by
    intro k hk hik
    have hmem : i ∈ (allIdx shape).filter (fun j => j.getD d 0 = k) := by
      rw [List.mem_filter]
      exact ⟨hi, by simp only [decide_eq_true_eq]; exact hik⟩
    have hwm : w i ∈ ((allIdx shape).filter (fun j => j.getD d 0 = k)).map w :=
      List.mem_map_of_mem w hmem
    refine mem_eq_zero_of_sum_zero _ ?_ hk (w i) hwm
    intro x hx
    simp only [List.mem_map] at hx
    obtain ⟨j, hj, rfl⟩ := hx
    exact hw j (List.mem_of_mem_filter hj)
  rcases hd with ⟨h1, h2⟩ | ⟨h1, h2⟩
  · exact key 0 (by simpa using h1) (by simpa using h2)
  · exact key _ (by simpa using h1) (by simpa using h2)

/-- Helper: a fold accumulating sums equals the map-sum. -/
theorem foldl_add_eq_sum {α : Type} (l : List α) (f : α → ℚ) :
    ∀ a : ℚ, l.foldl (fun acc t => acc + f t) a = a + (l.map f).sum := by
  induction l with
  | nil => intro a; simp
  | cons x xs ih =>
      intro a
      simp only [List.foldl_cons, List.map_cons, List.sum_cons, ih (a + f x)]
      ring

/-- C1: after the `n_classes <= 2` fit postprocessing, every term's weighted
average score under its own bin weights is zero (exactly, in the rational
embedding — "to floating-point tolerance" in floats), and the intercept
equals the sum of the per-term means that were subtracted; this still holds
after the zero-restoration step, because a zero-total edge slice of a
non-negative weight tensor carries zero weight at every cell. -/
theorem centering_invariant (terms : List TermData)
    (hw : ∀ t ∈ terms, ∀ i ∈ allIdx t.shape, 0 ≤ t.weight i)
    (hpos : ∀ t ∈ terms, 0 < tensorSum t.shape t.weight) :
    (∀ t ∈ (fitPostprocess terms).1,
      tensorWeightedMean t.shape t.score t.weight = 0) ∧
    (fitPostprocess terms).2 =
      (terms.map (fun t => tensorWeightedMean t.shape t.score t.weight)).sum := by
  constructor
  · intro t ht
    simp only [fitPostprocess, List.mem_map] at ht
    obtain ⟨t0, ht0, rfl⟩ := ht
    have hw0 := hw t0 ht0
    have hden : tensorSum t0.shape t0.weight ≠ 0 := ne_of_gt (hpos t0 ht0)
    set m := tensorWeightedMean t0.shape t0.score t0.weight with hm
    have hstep1 : tensorSum t0.shape
        (fun i => (restoreTerm (centerTerm t0)).score i * t0.weight i) =
        tensorSum t0.shape (fun i => (t0.score i - m) * t0.weight i) := by
      unfold tensorSum
      refine sum_map_congr _ _ _ ?_
      intro i hi
      simp only [restoreTerm, centerTerm]
      by_cases hz : zeroedIdx t0.shape t0.weight i = true
      · rw [if_pos hz, zeroedIdx_weight_zero t0.shape t0.weight i hi hw0 hz]
        ring
      · rw [if_neg hz]
    have hstep2 : tensorSum t0.shape (fun i => (t0.score i - m) * t0.weight i) = 0 := by
      unfold tensorSum
      have hpt : ∀ i ∈ allIdx t0.shape,
          (t0.score i - m) * t0.weight i =
            t0.score i * t0.weight i - m * t0.weight i := by
        intro i _
        ring
      rw [sum_map_congr _ _ _ hpt, sum_map_sub_q, List.sum_map_mul_left]
      have hx : ((allIdx t0.shape).map (fun i => t0.score i * t0.weight i)).sum =
          tensorSum t0.shape (fun i => t0.score i * t0.weight i) := rfl
      have hy : ((allIdx t0.shape).map t0.weight).sum =
          tensorSum t0.shape t0.weight := rfl
      rw [hx, hy, hm]
      unfold tensorWeightedMean
      rw [div_mul_cancel₀ _ hden]
      ring
    show tensorWeightedMean (restoreTerm (centerTerm t0)).shape
      (restoreTerm (centerTerm t0)).score (restoreTerm (centerTerm t0)).weight = 0
    unfold tensorWeightedMean
    have hshape : (restoreTerm (centerTerm t0)).shape = t0.shape := rfl
    have hweight : (restoreTerm (centerTerm t0)).weight = t0.weight := rfl
    rw [hshape, hweight, hstep1.trans hstep2, zero_div]
  · simp only [fitPostprocess]
    rw [foldl_add_eq_sum terms _ 0, zero_add]

/-- Witness for C1: a concrete one-term model with shape `[2]`, scores
`[4, 0]` and unit weights. -/
theorem centering_invariant_witness :
    tensorWeightedMean (restoreTerm (centerTerm exampleTermData)).shape
      (restoreTerm (centerTerm exampleTermData)).score
      (restoreTerm (centerTerm exampleTermData)).weight = 0 ∧
    (fitPostprocess [exampleTermData]).2 =
      ([exampleTermData].map
        (fun t => tensorWeightedMean t.shape t.score t.weight)).sum := by
  have hall : allIdx [2] = [[0], [1]] := rfl
  have hhw : ∀ t ∈ [exampleTermData], ∀ i ∈ allIdx t.shape, 0 ≤ t.weight i := by
    intro t ht i hi
    rw [List.mem_singleton] at ht
    subst ht
    norm_num [exampleTermData]
  have hhpos : ∀ t ∈ [exampleTermData], 0 < tensorSum t.shape t.weight := by
    intro t ht
    rw [List.mem_singleton] at ht
    subst ht
    norm_num [tensorSum, exampleTermData, hall]
  constructor
  · exact (centering_invariant [exampleTermData] hhw hhpos).1 _ (by
      simp [fitPostprocess])
  · exact (centering_invariant [exampleTermData] hhw hhpos).2

/-- Helper: searchsorted position versus value in a strictly sorted list. -/
theorem sorted_lt_iff_count (l : List ℚ) (hs : List.Sorted (· < ·) l) (v : ℚ) :
    ∀ j, j < l.length → (l.getD j 0 < v ↔ j < searchsortedLeft l v) := by
  induction l with
  | nil =>
      intro j hj
      simp at hj
  | cons y t ih =>
      rw [List.sorted_cons] at hs
      intro j hj
      unfold searchsortedLeft
      rw [List.countP_cons]
      by_cases hy : y < v
      · rw [if_pos (by simpa using hy)]
        cases j with
        | zero =>
            simp only [List.getD_cons_zero]
            constructor
            · intro _
              omega
            · intro _
              exact hy
        | succ j2 =>
            simp only [List.getD_cons_succ]
            have hiff := ih hs.2 j2 (by simpa using hj)
            unfold searchsortedLeft at hiff
            constructor
            · intro h
              have := hiff.mp h
              omega
            · intro h
              exact hiff.mpr (by omega)
      · rw [if_neg (by simpa using hy)]
        have hz : t.countP (fun c => decide (c < v)) = 0 := by
          rw [List.countP_eq_zero]
          intro a ha
          simp only [decide_eq_true_eq]
          intro hav
          exact hy (lt_trans (hs.1 a ha) hav)
        rw [hz]
        cases j with
        | zero =>
            simp only [List.getD_cons_zero]
            constructor
            · intro h
              exact absurd h hy
            · intro h
              omega
        | succ j2 =>
            simp only [List.getD_cons_succ]
            constructor
            · intro h
              have hmem : t.getD j2 0 ∈ t := by
                rw [List.getD_eq_getElem _ _ (by simpa using hj)]
                exact List.getElem_mem _
              exact absurd (lt_trans (hs.1 _ hmem) h) hy
            · intro h
              omega

/-- Helper: searchsorted of a member finds it. -/
theorem sorted_count_self (l : List ℚ) (hs : List.Sorted (· < ·) l) (x : ℚ)
    (hx : x ∈ l) :
    searchsortedLeft l x < l.length ∧ l.getD (searchsortedLeft l x) 0 = x := by
  induction l with
  | nil => simp at hx
  | cons y t ih =>
      rw [List.sorted_cons] at hs
      unfold searchsortedLeft
      rw [List.countP_cons]
      rcases List.mem_cons.mp hx with rfl | hxt
      · rw [if_neg (by simp)]
        have hz : t.countP (fun c => decide (c < x)) = 0 := by
          rw [List.countP_eq_zero]
          intro a ha
          simp only [decide_eq_true_eq]
          exact not_lt.mpr (le_of_lt (hs.1 a ha))
        rw [hz]
        simp
      · have hyx : y < x := hs.1 x hxt
        rw [if_pos (by simpa using hyx)]
        have hr := ih hs.2 hxt
        unfold searchsortedLeft at hr
        constructor
        · simp only [List.length_cons]
          omega
        · rw [List.getD_cons_succ]
          exact hr.2

/-- Helper: decomposing a sorted bounds-and-cuts chain. -/
theorem chain_facts (lo hi : ℚ) (l : List ℚ)
    (H : List.Sorted (· < ·) (lo :: (l ++ [hi]))) :
    List.Sorted (· < ·) l ∧ (∀ c ∈ l, lo < c) ∧ (∀ c ∈ l, c < hi) ∧ lo < hi := by
  rw [List.sorted_cons] at H
  obtain ⟨h1, h2⟩ := H
  rw [List.Sorted, List.pairwise_append] at h2
  refine ⟨h2.1, ?_, ?_, ?_⟩
  · intro c hc
    exact h1 c (List.mem_append_left _ hc)
  · intro c hc
    exact h2.2.2 c hc hi (by simp)
  · exact h1 hi (List.mem_append_right _ (by simp))

/-- Helper: a refining cut list refines the whole bounds chain. -/
theorem chain_sublist (lo hi : ℚ) (l1 l2 : List ℚ) (h : l1.Sublist l2) :
    (lo :: (l1 ++ [hi])).Sublist (lo :: (l2 ++ [hi])) :=
  List.Sublist.cons₂ lo (h.append_right [hi])

/-- Helper: `getD` is strictly monotone on a strictly sorted list. -/
theorem sorted_getD_lt (l : List ℚ) (hs : List.Sorted (· < ·) l) (a b : ℕ)
    (hab : a < b) (hb : b < l.length) : l.getD a 0 < l.getD b 0 := by
  rw [List.getD_eq_getElem _ _ (lt_trans hab hb), List.getD_eq_getElem _ _ hb]
  exact List.pairwise_iff_get.mp hs ⟨a, lt_trans hab hb⟩ ⟨b, hb⟩ hab

/-- Helper: `getD` of an in-range index is a member. -/
theorem getD_mem_of_lt (l : List ℚ) (j : ℕ) (h : j < l.length) :
    l.getD j 0 ∈ l := by
  rw [List.getD_eq_getElem _ _ h]
  exact List.getElem_mem _

/-- Helper: an old cut sits at its searchsorted position in the refining
new cut list. -/
theorem posOld_spec (oldCuts newCuts : List ℚ)
    (hns : List.Sorted (· < ·) newCuts) (Hsub : oldCuts.Sublist newCuts)
    (i : ℕ) (hi2 : i < oldCuts.length) :
    searchsortedLeft newCuts (oldCuts.getD i 0) < newCuts.length ∧
    newCuts.getD (searchsortedLeft newCuts (oldCuts.getD i 0)) 0 =
      oldCuts.getD i 0 :=
  sorted_count_self newCuts hns _ (Hsub.subset (getD_mem_of_lt _ i hi2))

/-- Helper: old-cut positions in the new cut list are strictly monotone. -/
theorem posOld_strictMono (oldCuts newCuts : List ℚ)
    (hns : List.Sorted (· < ·) newCuts)
    (hos : List.Sorted (· < ·) oldCuts) (Hsub : oldCuts.Sublist newCuts)
    (i j : ℕ) (hij : i < j) (hj : j < oldCuts.length) :
    searchsortedLeft newCuts (oldCuts.getD i 0) <
      searchsortedLeft newCuts (oldCuts.getD j 0) := by
  have h1 := posOld_spec oldCuts newCuts hns Hsub i (lt_trans hij hj)
  have hlt : oldCuts.getD i 0 < oldCuts.getD j 0 :=
    sorted_getD_lt oldCuts hos i j hij hj
  have hiff := sorted_lt_iff_count newCuts hns (oldCuts.getD j 0)
    (searchsortedLeft newCuts (oldCuts.getD i 0)) h1.1
  rw [h1.2] at hiff
  exact hiff.mp hlt

/-- Helper: fiber boundaries never pass the end of the new region list. -/
theorem fiberStart_le (oldCuts newCuts : List ℚ)
    (hns : List.Sorted (· < ·) newCuts) (Hsub : oldCuts.Sublist newCuts)
    (i : ℕ) : fiberStart oldCuts newCuts i ≤ newCuts.length + 1 := by
  unfold fiberStart
  by_cases h0 : i = 0
  · rw [if_pos h0]
    omega
  · rw [if_neg h0]
    by_cases hm : i ≤ oldCuts.length
    · rw [if_pos hm]
      have := (posOld_spec oldCuts newCuts hns Hsub (i - 1) (by omega)).1
      omega
    · rw [if_neg hm]

/-- Helper: fiber boundaries are monotone. -/
theorem fiberStart_mono (oldCuts newCuts : List ℚ)
    (hns : List.Sorted (· < ·) newCuts)
    (hos : List.Sorted (· < ·) oldCuts) (Hsub : oldCuts.Sublist newCuts)
    (i : ℕ) : fiberStart oldCuts newCuts i ≤ fiberStart oldCuts newCuts (i + 1) := by
  by_cases h0 : i = 0
  · subst h0
    unfold fiberStart
    rw [if_pos rfl]
    omega
  · by_cases hm : i ≤ oldCuts.length
    · by_cases hm2 : i + 1 ≤ oldCuts.length
      · unfold fiberStart
        rw [if_neg h0, if_pos hm, if_neg (by omega), if_pos hm2]
        have := posOld_strictMono oldCuts newCuts hns hos Hsub (i - 1) i
          (by omega) (by omega)
        have heq : i + 1 - 1 = i := by omega
        rw [heq]
        omega
      · unfold fiberStart
        rw [if_neg h0, if_pos hm, if_neg (by omega), if_neg hm2]
        have := (posOld_spec oldCuts newCuts hns Hsub (i - 1) (by omega)).1
        omega
    · unfold fiberStart
      rw [if_neg h0, if_neg hm, if_neg (by omega), if_neg (by omega)]

/-- Helper: partitioning a range sum along monotone boundaries. -/
theorem sum_partition (s : ℕ → ℕ) (M : ℕ) (hs0 : s 0 = 0)
    (hmono : ∀ i < M, s i ≤ s (i + 1)) (F : ℕ → ℚ) :
    ∑ k ∈ Finset.range (s M), F k =
      ∑ i ∈ Finset.range M, ∑ k ∈ Finset.Ico (s i) (s (i + 1)), F k := by
  induction M with
  | zero => simp [hs0]
  | succ M ih =>
      have hmono2 : ∀ i < M, s i ≤ s (i + 1) := fun i h => hmono i (by omega)
      rw [Finset.sum_range_succ, ← ih hmono2]
      have h1 : s M ≤ s (M + 1) := hmono M (by omega)
      conv_lhs => rw [Finset.range_eq_Ico]
      conv_rhs => rw [Finset.range_eq_Ico]
      exact (Finset.sum_Ico_consecutive F (Nat.zero_le _) h1).symm

/-- Helper: every index below the last boundary lies in some fiber. -/
theorem partition_cover (s : ℕ → ℕ) (M k : ℕ) (hs0 : s 0 = 0)
    (hk : k < s M) : ∃ i < M, s i ≤ k ∧ k < s (i + 1) := by
  induction M with
  | zero =>
      rw [hs0] at hk
      omega
  | succ M ih =>
      by_cases h : k < s M
      · obtain ⟨i, hi, h1, h2⟩ := ih h
        exact ⟨i, by omega, h1, h2⟩
      · exact ⟨M, by omega, by omega, hk⟩

/-- Helper: telescoping sum over an interval. -/
theorem sum_Ico_telescope (f : ℕ → ℚ) (a b : ℕ) (hab : a ≤ b) :
    ∑ k ∈ Finset.Ico a b, (f (k + 1) - f k) = f b - f a := by
  rw [Finset.sum_Ico_eq_sub _ hab, Finset.sum_range_sub, Finset.sum_range_sub]
  ring

/-- Helper: inside old region `i+1`, the lookup maps every new region of
its fiber onto it and the new region nests inside the old cell. -/
theorem fiber_spec (lo hi : ℚ) (oldCuts newCuts : List ℚ)
    (H : List.Sorted (· < ·) (lo :: (newCuts ++ [hi])))
    (Hsub : oldCuts.Sublist newCuts)
    (i k : ℕ) (him : i ≤ oldCuts.length)
    (h1 : fiberStart oldCuts newCuts i ≤ k)
    (h2 : k < fiberStart oldCuts newCuts (i + 1)) :
    lookupAt oldCuts newCuts k = i + 1 ∧
    oldLowEdge lo oldCuts (i + 1) ≤ newLowEdge lo newCuts k ∧
    newHighEdge hi newCuts k ≤ oldHighEdge hi oldCuts (i + 1) ∧
    newLowEdge lo newCuts k < newHighEdge hi newCuts k := by
  obtain ⟨hns, hgt, hlt, hlohi⟩ := chain_facts lo hi newCuts H
  have hos : List.Sorted (· < ·) oldCuts := List.Pairwise.sublist Hsub hns
  have hmn := Hsub.length_le
  have hkn : k ≤ newCuts.length := by
    have := fiberStart_le oldCuts newCuts hns Hsub (i + 1)
    omega
  have hlow : i = 0 ∨ (1 ≤ i ∧ i ≤ oldCuts.length ∧
      searchsortedLeft newCuts (oldCuts.getD (i - 1) 0) < k) := by
    by_cases h0 : i = 0
    · exact Or.inl h0
    · right
      refine ⟨by omega, him, ?_⟩
      unfold fiberStart at h1
      rw [if_neg h0, if_pos him] at h1
      omega
  have hhigh : (i = oldCuts.length ∧ k ≤ newCuts.length) ∨
      (i < oldCuts.length ∧ k ≤ searchsortedLeft newCuts (oldCuts.getD i 0)) := by
    by_cases him2 : i < oldCuts.length
    · right
      refine ⟨him2, ?_⟩
      unfold fiberStart at h2
      rw [if_neg (by omega), if_pos (by omega)] at h2
      have heq : i + 1 - 1 = i := by omega
      rw [heq] at h2
      omega
    · left
      exact ⟨by omega, hkn⟩
  have hkn2 : i < oldCuts.length → k < newCuts.length := by
    intro him2
    rcases hhigh with ⟨h, -⟩ | ⟨-, hk⟩
    · omega
    · have := (posOld_spec oldCuts newCuts hns Hsub i (by omega)).1
      omega
  have hA : lookupAt oldCuts newCuts k = i + 1 := by
    by_cases hkeq : k = newCuts.length
    · have him3 : i = oldCuts.length := by
        by_contra hc
        have := hkn2 (by omega)
        omega
      unfold lookupAt
      rw [if_pos hkeq]
      omega
    · have hklt : k < newCuts.length := by omega
      unfold lookupAt
      rw [if_neg hkeq]
      have hge : i ≤ searchsortedLeft oldCuts (newCuts.getD k 0) := by
        rcases hlow with rfl | ⟨hi1, him4, hposlt⟩
        · omega
        · have hpos := posOld_spec oldCuts newCuts hns Hsub (i - 1) (by omega)
          have hnc : oldCuts.getD (i - 1) 0 < newCuts.getD k 0 := by
            calc oldCuts.getD (i - 1) 0
                = newCuts.getD (searchsortedLeft newCuts (oldCuts.getD (i - 1) 0)) 0 :=
                  hpos.2.symm
              _ < newCuts.getD k 0 := sorted_getD_lt newCuts hns _ _ hposlt hklt
          have := (sorted_lt_iff_count oldCuts hos (newCuts.getD k 0) (i - 1)
            (by omega)).mp hnc
          omega
      have hle : searchsortedLeft oldCuts (newCuts.getD k 0) ≤ i := by
        rcases hhigh with ⟨him3, -⟩ | ⟨him2, hkpos⟩
        · have := List.countP_le_length (fun c => decide (c < newCuts.getD k 0))
            (l := oldCuts)
          unfold searchsortedLeft
          omega
        · have hpos := posOld_spec oldCuts newCuts hns Hsub i (by omega)
          have hnc : ¬ (oldCuts.getD i 0 < newCuts.getD k 0) := by
            rcases Nat.lt_or_ge k (searchsortedLeft newCuts (oldCuts.getD i 0)) with
              hlt2 | hge2
            · have hx := sorted_getD_lt newCuts hns k _ hlt2 hpos.1
              rw [hpos.2] at hx
              exact lt_asymm hx
            · have hkeq2 : k = searchsortedLeft newCuts (oldCuts.getD i 0) := by omega
              rw [hkeq2, hpos.2]
              exact lt_irrefl _
          have hiff := sorted_lt_iff_count oldCuts hos (newCuts.getD k 0) i (by omega)
          exact Nat.not_lt.mp (mt hiff.mpr hnc)
      omega
  have hB : oldLowEdge lo oldCuts (i + 1) ≤ newLowEdge lo newCuts k := by
    rcases hlow with rfl | ⟨hi1, him4, hposlt⟩
    · unfold oldLowEdge
      rw [if_pos rfl]
      unfold newLowEdge
      by_cases hk0 : k = 0
      · rw [if_pos hk0]
      · rw [if_neg hk0]
        exact le_of_lt (hgt _ (getD_mem_of_lt newCuts (k - 1) (by omega)))
    · unfold oldLowEdge
      rw [if_neg (by omega)]
      have hidx : i + 1 - 2 = i - 1 := by omega
      rw [hidx]
      have hposn := (posOld_spec oldCuts newCuts hns Hsub (i - 1) (by omega)).1
      have hk1 : 1 ≤ k := by omega
      unfold newLowEdge
      rw [if_neg (by omega)]
      have hpos := posOld_spec oldCuts newCuts hns Hsub (i - 1) (by omega)
      rcases Nat.lt_or_ge (searchsortedLeft newCuts (oldCuts.getD (i - 1) 0)) (k - 1) with
        hlt2 | hge2
      · have hx := sorted_getD_lt newCuts hns _ _ hlt2 (by omega)
        rw [hpos.2] at hx
        exact le_of_lt hx
      · have hkeq2 : k - 1 = searchsortedLeft newCuts (oldCuts.getD (i - 1) 0) := by
          omega
        rw [hkeq2, hpos.2]
  have hC : newHighEdge hi newCuts k ≤ oldHighEdge hi oldCuts (i + 1) := by
    rcases hhigh with ⟨him3, -⟩ | ⟨him2, hkpos⟩
    · unfold oldHighEdge
      rw [if_pos (by omega)]
      unfold newHighEdge
      by_cases hkn3 : newCuts.length ≤ k
      · rw [if_pos hkn3]
      · rw [if_neg hkn3]
        exact le_of_lt (hlt _ (getD_mem_of_lt newCuts k (by omega)))
    · have hpos := posOld_spec oldCuts newCuts hns Hsub i (by omega)
      have hkltn : k < newCuts.length := by omega
      unfold newHighEdge
      rw [if_neg (by omega)]
      unfold oldHighEdge
      rw [if_neg (by omega)]
      have hidx : i + 1 - 1 = i := by omega
      rw [hidx]
      rcases Nat.lt_or_ge k (searchsortedLeft newCuts (oldCuts.getD i 0)) with
        hlt2 | hge2
      · have hx := sorted_getD_lt newCuts hns k _ hlt2 hpos.1
        rw [hpos.2] at hx
        exact le_of_lt hx
      · have hkeq2 : k = searchsortedLeft newCuts (oldCuts.getD i 0) := by omega
        rw [hkeq2, hpos.2]
  have hD : newLowEdge lo newCuts k < newHighEdge hi newCuts k := by
    unfold newLowEdge newHighEdge
    by_cases hk0 : k = 0
    · rw [if_pos hk0]
      by_cases hn0 : newCuts.length ≤ k
      · rw [if_pos hn0]
        exact hlohi
      · rw [if_neg hn0]
        exact hgt _ (getD_mem_of_lt newCuts k (by omega))
    · rw [if_neg hk0]
      by_cases hn0 : newCuts.length ≤ k
      · rw [if_pos hn0]
        exact hlt _ (getD_mem_of_lt newCuts (k - 1) (by omega))
      · rw [if_neg hn0]
        exact sorted_getD_lt newCuts hns (k - 1) k (by omega) (by omega)
  exact ⟨hA, hB, hC, hD⟩

/-- Helper: old cells of a well-formed grid have positive width. -/
theorem old_cell_width_pos (lo hi : ℚ) (oldCuts : List ℚ)
    (Hold : List.Sorted (· < ·) (lo :: (oldCuts ++ [hi])))
    (i : ℕ) (him : i ≤ oldCuts.length) :
    oldLowEdge lo oldCuts (i + 1) < oldHighEdge hi oldCuts (i + 1) := by
  obtain ⟨hos, hgt, hlt, hlohi⟩ := chain_facts lo hi oldCuts Hold
  unfold oldLowEdge oldHighEdge
  by_cases h0 : i = 0
  · subst h0
    rw [if_pos rfl]
    by_cases hm0 : oldCuts.length < 1
    · rw [if_pos hm0]
      exact hlohi
    · rw [if_neg hm0]
      exact hgt _ (getD_mem_of_lt oldCuts 0 (by omega))
  · rw [if_neg (by omega)]
    have hidx : i + 1 - 2 = i - 1 := by omega
    have hidx2 : i + 1 - 1 = i := by omega
    rw [hidx, hidx2]
    by_cases hm0 : oldCuts.length < i + 1
    · rw [if_pos hm0]
      exact hlt _ (getD_mem_of_lt oldCuts (i - 1) (by omega))
    · rw [if_neg hm0]
      exact sorted_getD_lt oldCuts hos (i - 1) i (by omega) (by omega)

/-- Helper: on its fiber, the overlap fraction is the exact width ratio of
the nested intervals. -/
theorem fiber_pct (lo hi : ℚ) (oldCuts newCuts : List ℚ)
    (H : List.Sorted (· < ·) (lo :: (newCuts ++ [hi])))
    (Hsub : oldCuts.Sublist newCuts)
    (i k : ℕ) (him : i ≤ oldCuts.length)
    (h1 : fiberStart oldCuts newCuts i ≤ k)
    (h2 : k < fiberStart oldCuts newCuts (i + 1)) :
    harmonizePct lo hi lo hi oldCuts newCuts k =
      (newHighEdge hi newCuts k - newLowEdge lo newCuts k) /
        (oldHighEdge hi oldCuts (i + 1) - oldLowEdge lo oldCuts (i + 1)) := by
  obtain ⟨hA, hB, hC, hD⟩ := fiber_spec lo hi oldCuts newCuts H Hsub i k him h1 h2
  simp only [harmonizePct, hA]
  rw [if_neg (by
    push_neg
    exact ⟨lt_of_lt_of_le hD hC, lt_of_le_of_lt hB hD⟩)]
  rw [if_neg (not_lt.mpr hB), if_neg (not_lt.mpr hC)]

/-- Helper: the overlap fractions of one fiber sum to exactly 1. -/
theorem fiber_pct_sum (lo hi : ℚ) (oldCuts newCuts : List ℚ)
    (H : List.Sorted (· < ·) (lo :: (newCuts ++ [hi])))
    (Hsub : oldCuts.Sublist newCuts)
    (i : ℕ) (him : i ≤ oldCuts.length) :
    ∑ k ∈ Finset.Ico (fiberStart oldCuts newCuts i)
        (fiberStart oldCuts newCuts (i + 1)),
      harmonizePct lo hi lo hi oldCuts newCuts k = 1 := by
  obtain ⟨hns, hgt, hlt, hlohi⟩ := chain_facts lo hi newCuts H
  have hos : List.Sorted (· < ·) oldCuts := List.Pairwise.sublist Hsub hns
  have Hold : List.Sorted (· < ·) (lo :: (oldCuts ++ [hi])) :=
    List.Pairwise.sublist (chain_sublist lo hi oldCuts newCuts Hsub) H
  have hwidth := old_cell_width_pos lo hi oldCuts Hold i him
  have hmono := fiberStart_mono oldCuts newCuts hns hos Hsub i
  have hstep : ∀ k ∈ Finset.Ico (fiberStart oldCuts newCuts i)
      (fiberStart oldCuts newCuts (i + 1)),
      harmonizePct lo hi lo hi oldCuts newCuts k =
        ((fun j => if j ≤ newCuts.length then newLowEdge lo newCuts j else hi) (k + 1) -
          (fun j => if j ≤ newCuts.length then newLowEdge lo newCuts j else hi) k) /
          (oldHighEdge hi oldCuts (i + 1) - oldLowEdge lo oldCuts (i + 1)) := by
    intro k hk
    rw [Finset.mem_Ico] at hk
    have hkn : k ≤ newCuts.length := by
      have := fiberStart_le oldCuts newCuts hns Hsub (i + 1)
      omega
    rw [fiber_pct lo hi oldCuts newCuts H Hsub i k him hk.1 hk.2]
    congr 1
    have hGk : (if k ≤ newCuts.length then newLowEdge lo newCuts k else hi) =
        newLowEdge lo newCuts k := if_pos hkn
    have hGk1 : (if k + 1 ≤ newCuts.length then newLowEdge lo newCuts (k + 1) else hi) =
        newHighEdge hi newCuts k := by
      by_cases hk1 : k + 1 ≤ newCuts.length
      · rw [if_pos hk1]
        unfold newLowEdge newHighEdge
        rw [if_neg (by omega), if_neg (by omega)]
        simp
      · rw [if_neg hk1]
        unfold newHighEdge
        rw [if_pos (by omega)]
    simp only [hGk, hGk1]
  rw [Finset.sum_congr rfl hstep]
  have hdiv : ∀ k ∈ Finset.Ico (fiberStart oldCuts newCuts i)
      (fiberStart oldCuts newCuts (i + 1)),
      ((fun j => if j ≤ newCuts.length then newLowEdge lo newCuts j else hi) (k + 1) -
        (fun j => if j ≤ newCuts.length then newLowEdge lo newCuts j else hi) k) /
        (oldHighEdge hi oldCuts (i + 1) - oldLowEdge lo oldCuts (i + 1)) =
      ((fun j => if j ≤ newCuts.length then newLowEdge lo newCuts j else hi) (k + 1) -
        (fun j => if j ≤ newCuts.length then newLowEdge lo newCuts j else hi) k) *
        (oldHighEdge hi oldCuts (i + 1) - oldLowEdge lo oldCuts (i + 1))⁻¹ := by
    intro k _
    rw [div_eq_mul_inv]
  rw [Finset.sum_congr rfl hdiv, ← Finset.sum_mul,
    sum_Ico_telescope
      (fun j => if j ≤ newCuts.length then newLowEdge lo newCuts j else hi)
      (fiberStart oldCuts newCuts i) (fiberStart oldCuts newCuts (i + 1)) hmono]
  have hGa : (if fiberStart oldCuts newCuts i ≤ newCuts.length then
      newLowEdge lo newCuts (fiberStart oldCuts newCuts i) else hi) =
      oldLowEdge lo oldCuts (i + 1) := by
    by_cases h0 : i = 0
    · subst h0
      have hfs : fiberStart oldCuts newCuts 0 = 0 := by
        unfold fiberStart
        rw [if_pos rfl]
      rw [hfs]
      rw [if_pos (Nat.zero_le _)]
      unfold newLowEdge oldLowEdge
      rw [if_pos rfl, if_pos (by norm_num)]
    · have hpos := posOld_spec oldCuts newCuts hns Hsub (i - 1) (by omega)
      have hfs : fiberStart oldCuts newCuts i =
          searchsortedLeft newCuts (oldCuts.getD (i - 1) 0) + 1 := by
        unfold fiberStart
        rw [if_neg h0, if_pos him]
      rw [hfs]
      rw [if_pos (by omega)]
      unfold newLowEdge oldLowEdge
      rw [if_neg (by omega), if_neg (by omega)]
      have hidx : searchsortedLeft newCuts (oldCuts.getD (i - 1) 0) + 1 - 1 =
          searchsortedLeft newCuts (oldCuts.getD (i - 1) 0) := by omega
      have hidx2 : i + 1 - 2 = i - 1 := by omega
      rw [hidx, hidx2, hpos.2]
  have hGb : (if fiberStart oldCuts newCuts (i + 1) ≤ newCuts.length then
      newLowEdge lo newCuts (fiberStart oldCuts newCuts (i + 1)) else hi) =
      oldHighEdge hi oldCuts (i + 1) := by
    by_cases him2 : i < oldCuts.length
    · have hpos := posOld_spec oldCuts newCuts hns Hsub i (by omega)
      have hfs : fiberStart oldCuts newCuts (i + 1) =
          searchsortedLeft newCuts (oldCuts.getD i 0) + 1 := by
        unfold fiberStart
        rw [if_neg (by omega), if_pos (by omega)]
        have hidx : i + 1 - 1 = i := by omega
        rw [hidx]
      rw [hfs]
      rw [if_pos (by omega)]
      unfold newLowEdge oldHighEdge
      rw [if_neg (by omega), if_neg (by omega)]
      have hidx2 : searchsortedLeft newCuts (oldCuts.getD i 0) + 1 - 1 =
          searchsortedLeft newCuts (oldCuts.getD i 0) := by omega
      have hidx3 : i + 1 - 1 = i := by omega
      rw [hidx2, hidx3, hpos.2]
    · have hfs : fiberStart oldCuts newCuts (i + 1) = newCuts.length + 1 := by
        unfold fiberStart
        rw [if_neg (by omega), if_neg (by omega)]
      rw [hfs]
      rw [if_neg (by omega)]
      unfold oldHighEdge
      rw [if_pos (by omega)]
  rw [hGa, hGb]
  rw [mul_inv_cancel₀ (by linarith)]

/-- Helper: a list sum as a range sum of positional lookups. -/
theorem list_sum_getD (l : List ℚ) :
    l.sum = ∑ j ∈ Finset.range l.length, l.getD j 0 := by
  induction l with
  | nil => simp
  | cons a t ih =>
      rw [List.sum_cons, List.length_cons, Finset.sum_range_succ']
      simp only [List.getD_cons_succ, List.getD_cons_zero]
      rw [← ih]
      ring

/-- Helper: positional lookup into a mapped range. -/
theorem getD_map_range (N j : ℕ) (f : ℕ → ℚ) (hj : j < N) :
    ((List.range N).map f).getD j 0 = f j := by
  have hlen : j < ((List.range N).map f).length := by simpa using hj
  rw [List.getD_eq_getElem _ _ hlen]
  simp

/-- Helper: a harmonized weight cell under the identity mapping is the old
cell value scaled by the overlap fraction. -/
theorem harmonizeCell_id (oldT : List ℚ) (frac : ℚ) (oi : ℕ) :
    harmonizeCell oldT none frac (identityMapping oi) = oldT.getD oi 0 * frac := by
  simp [harmonizeCell, identityMapping]

/-- Helper: a harmonized score cell under the identity mapping copies the
old cell value exactly. -/
theorem harmonizeCell_id_score (oldT ev : List ℚ) (frac : ℚ) (oi : ℕ) :
    harmonizeCell oldT (some ev) frac (identityMapping oi) = oldT.getD oi 0 := by
  simp [harmonizeCell, identityMapping]

/-- Helper: a range sum of length `m + 3` peeled at both ends. -/
theorem range_sum_peel_both (F : ℕ → ℚ) (m : ℕ) :
    ∑ j ∈ Finset.range (m + 3), F j =
      F 0 + (∑ i ∈ Finset.range (m + 1), F (i + 1)) + F (m + 2) := by
  rw [show m + 3 = (m + 2) + 1 from rfl, Finset.sum_range_succ,
    show m + 2 = (m + 1) + 1 from rfl, Finset.sum_range_succ']
  ring

/-- Helper: summing the looked-up old weights times the overlap fractions
over all new regions gives exactly the sum of the old region weights, by
decomposing the new regions into the fibers of the old regions. -/
theorem harmonize_mid_sum (lo hi : ℚ) (oldCuts newCuts : List ℚ) (oldW : List ℚ)
    (H : List.Sorted (· < ·) (lo :: (newCuts ++ [hi])))
    (Hsub : oldCuts.Sublist newCuts) :
    ∑ k ∈ Finset.range (newCuts.length + 1),
      oldW.getD (lookupAt oldCuts newCuts k) 0 *
        harmonizePct lo hi lo hi oldCuts newCuts k =
    ∑ i ∈ Finset.range (oldCuts.length + 1), oldW.getD (i + 1) 0 := by
  obtain ⟨hns, hgt, hlt, hlohi⟩ := chain_facts lo hi newCuts H
  have hos : List.Sorted (· < ·) oldCuts := List.Pairwise.sublist Hsub hns
  have hs0 : fiberStart oldCuts newCuts 0 = 0 := by
    unfold fiberStart
    rw [if_pos rfl]
  have hsM : fiberStart oldCuts newCuts (oldCuts.length + 1) = newCuts.length + 1 := by
    unfold fiberStart
    rw [if_neg (by omega), if_neg (by omega)]
  have hmono : ∀ i < oldCuts.length + 1,
      fiberStart oldCuts newCuts i ≤ fiberStart oldCuts newCuts (i + 1) :=
    fun i _ => fiberStart_mono oldCuts newCuts hns hos Hsub i
  rw [← hsM, sum_partition (fiberStart oldCuts newCuts) (oldCuts.length + 1) hs0 hmono]
  refine Finset.sum_congr rfl (fun i hi2 => ?_)
  rw [Finset.mem_range] at hi2
  have him : i ≤ oldCuts.length := by omega
  have hcell : ∀ k ∈ Finset.Ico (fiberStart oldCuts newCuts i)
      (fiberStart oldCuts newCuts (i + 1)),
      oldW.getD (lookupAt oldCuts newCuts k) 0 *
        harmonizePct lo hi lo hi oldCuts newCuts k =
      oldW.getD (i + 1) 0 * harmonizePct lo hi lo hi oldCuts newCuts k := by
    intro k hk
    rw [Finset.mem_Ico] at hk
    rw [(fiber_spec lo hi oldCuts newCuts H Hsub i k him hk.1 hk.2).1]
  rw [Finset.sum_congr rfl hcell, ← Finset.mul_sum,
    fiber_pct_sum lo hi oldCuts newCuts H Hsub i him, mul_one]

/-- C3: harmonizing onto a strictly finer grid (new cuts a superset of the
old cuts, both strictly inside the shared public bounds) preserves the
total weight mass exactly; every new score cell receives exactly the score
of the old cell it looks up; and every new region is geometrically nested
inside the old cell it looks up, so each sub-cell of a split old cell gets
exactly that old cell's score value (utils.py 297-515). -/
theorem harmonize_tensor_finer_grid (lo hi : ℚ) (oldCuts newCuts : List ℚ)
    (oldW oldS ev : List ℚ)
    (H : List.Sorted (· < ·) (lo :: (newCuts ++ [hi])))
    (Hsub : oldCuts.Sublist newCuts)
    (hlen : oldW.length = oldCuts.length + 3) :
    (harmonize_tensor lo hi lo hi oldCuts newCuts identityMapping oldW none).sum
      = oldW.sum ∧
    (∀ j < newCuts.length + 3,
      (harmonize_tensor lo hi lo hi oldCuts newCuts identityMapping oldS
        (some ev)).getD j 0 = oldS.getD (lookupFullAt oldCuts newCuts j) 0) ∧
    (∀ k ≤ newCuts.length,
      oldLowEdge lo oldCuts (lookupAt oldCuts newCuts k) ≤
        newLowEdge lo newCuts k ∧
      newHighEdge hi newCuts k ≤
        oldHighEdge hi oldCuts (lookupAt oldCuts newCuts k)) := by
  refine ⟨?_, ?_, ?_⟩
  · simp only [harmonize_tensor, harmonizeCell_id]
    rw [list_range_map_sum]
    rw [range_sum_peel_both
      (fun j => oldW.getD (lookupFullAt oldCuts newCuts j) 0 *
        pctFullAt lo hi lo hi oldCuts newCuts j) newCuts.length]
    have hmid : ∀ i ∈ Finset.range (newCuts.length + 1),
        oldW.getD (lookupFullAt oldCuts newCuts (i + 1)) 0 *
          pctFullAt lo hi lo hi oldCuts newCuts (i + 1) =
        oldW.getD (lookupAt oldCuts newCuts i) 0 *
          harmonizePct lo hi lo hi oldCuts newCuts i := by
      intro i hi2
      rw [Finset.mem_range] at hi2
      unfold lookupFullAt pctFullAt
      rw [if_neg (by omega), if_neg (by omega), if_neg (by omega), if_neg (by omega)]
      have hidx : i + 1 - 1 = i := by omega
      rw [hidx]
    rw [Finset.sum_congr rfl hmid, harmonize_mid_sum lo hi oldCuts newCuts oldW H Hsub]
    have h0a : lookupFullAt oldCuts newCuts 0 = 0 := by
      unfold lookupFullAt
      rw [if_pos rfl]
    have h0b : pctFullAt lo hi lo hi oldCuts newCuts 0 = 1 := by
      unfold pctFullAt
      rw [if_pos rfl]
    have hta : lookupFullAt oldCuts newCuts (newCuts.length + 2) =
        oldCuts.length + 2 := by
      unfold lookupFullAt
      rw [if_neg (by omega), if_pos rfl]
    have htb : pctFullAt lo hi lo hi oldCuts newCuts (newCuts.length + 2) = 1 := by
      unfold pctFullAt
      rw [if_neg (by omega), if_pos rfl]
    rw [h0a, h0b, hta, htb, mul_one, mul_one]
    rw [list_sum_getD oldW, hlen]
    rw [range_sum_peel_both (fun j => oldW.getD j 0) oldCuts.length]
  · intro j hj
    unfold harmonize_tensor
    rw [getD_map_range _ j _ hj]
    exact harmonizeCell_id_score oldS ev _ _
  · intro k hk
    obtain ⟨hns, hgt, hlt, hlohi⟩ := chain_facts lo hi newCuts H
    have hos : List.Sorted (· < ·) oldCuts := List.Pairwise.sublist Hsub hns
    have hs0 : fiberStart oldCuts newCuts 0 = 0 := by
      unfold fiberStart
      rw [if_pos rfl]
    have hsM : fiberStart oldCuts newCuts (oldCuts.length + 1) =
        newCuts.length + 1 := by
      unfold fiberStart
      rw [if_neg (by omega), if_neg (by omega)]
    obtain ⟨i, hiM, h1, h2⟩ := partition_cover (fiberStart oldCuts newCuts)
      (oldCuts.length + 1) k hs0 (by rw [hsM]; omega)
    obtain ⟨hA, hB, hC, _⟩ := fiber_spec lo hi oldCuts newCuts H Hsub i k
      (by omega) h1 h2
    rw [hA]
    exact ⟨hB, hC⟩

/-- Concrete run of the finer-grid harmonization theorem: bounds 0 and 4,
old cuts [2] refined to new cuts [1, 2, 3]. -/
theorem harmonize_tensor_finer_grid_witness :
    (harmonize_tensor 0 4 0 4 [2] [1, 2, 3] identityMapping [5, 1, 2, 7] none).sum
      = ([5, 1, 2, 7] : List ℚ).sum ∧
    (∀ j < ([1, 2, 3] : List ℚ).length + 3,
      (harmonize_tensor 0 4 0 4 [2] [1, 2, 3] identityMapping [10, 20, 30, 40]
        (some [1, 2, 3, 4])).getD j 0 =
        ([10, 20, 30, 40] : List ℚ).getD (lookupFullAt [2] [1, 2, 3] j) 0) ∧
    (∀ k ≤ ([1, 2, 3] : List ℚ).length,
      oldLowEdge 0 [2] (lookupAt [2] [1, 2, 3] k) ≤ newLowEdge 0 [1, 2, 3] k ∧
      newHighEdge 4 [1, 2, 3] k ≤ oldHighEdge 4 [2] (lookupAt [2] [1, 2, 3] k)) :=
  harmonize_tensor_finer_grid 0 4 [2] [1, 2, 3] [5, 1, 2, 7] [10, 20, 30, 40]
    [1, 2, 3, 4]
    (by norm_num [List.sorted_cons])
    (List.Sublist.cons 1 (List.Sublist.cons₂ 2 (List.nil_sublist [3])))
    rfl

/-- Helper: a sorted cut sits at its own searchsorted position. -/
theorem searchsorted_self (c : List ℚ) (hs : List.Sorted (· < ·) c) (k : ℕ)
    (hk : k < c.length) : searchsortedLeft c (c.getD k 0) = k := by
  have h := sorted_count_self c hs (c.getD k 0) (getD_mem_of_lt c k hk)
  rcases Nat.lt_trichotomy (searchsortedLeft c (c.getD k 0)) k with hlt | heq | hgt
  · have := sorted_getD_lt c hs _ k hlt hk
    rw [h.2] at this
    exact absurd this (lt_irrefl _)
  · exact heq
  · have := sorted_getD_lt c hs k _ hgt h.1
    rw [h.2] at this
    exact absurd this (lt_irrefl _)

/-- Helper: when the new cuts equal the old cuts, the full lookup row is the
identity. -/
theorem lookupFull_self (c : List ℚ) (hs : List.Sorted (· < ·) c) (j : ℕ)
    (hj : j < c.length + 3) : lookupFullAt c c j = j := by
  unfold lookupFullAt
  by_cases h0 : j = 0
  · rw [if_pos h0, h0]
  · rw [if_neg h0]
    by_cases htop : j = c.length + 2
    · rw [if_pos htop, htop]
    · rw [if_neg htop]
      unfold lookupAt
      by_cases hlast : j - 1 = c.length
      · rw [if_pos hlast]
        omega
      · rw [if_neg hlast]
        rw [searchsorted_self c hs (j - 1) (by omega)]
        omega

/-- Helper: when the new cuts equal the old cuts, the fiber boundaries are
the identity. -/
theorem fiberStart_self (c : List ℚ) (hs : List.Sorted (· < ·) c) (i : ℕ)
    (hi2 : i ≤ c.length + 1) : fiberStart c c i = i := by
  unfold fiberStart
  by_cases h0 : i = 0
  · rw [if_pos h0, h0]
  · rw [if_neg h0]
    by_cases hm : i ≤ c.length
    · rw [if_pos hm]
      rw [searchsorted_self c hs (i - 1) (by omega)]
      omega
    · rw [if_neg hm]
      omega

/-- Helper: when the new cuts equal the old cuts, every overlap fraction is
exactly 1. -/
theorem pctFull_self (lo hi : ℚ) (c : List ℚ)
    (H : List.Sorted (· < ·) (lo :: (c ++ [hi]))) (j : ℕ)
    (hj : j < c.length + 3) : pctFullAt lo hi lo hi c c j = 1 := by
  obtain ⟨hs, hgt, hlt, hlohi⟩ := chain_facts lo hi c H
  unfold pctFullAt
  by_cases h0 : j = 0
  · rw [if_pos h0]
  · rw [if_neg h0]
    by_cases htop : j = c.length + 2
    · rw [if_pos htop]
    · rw [if_neg htop]
      have hk : j - 1 ≤ c.length := by omega
      have hfs1 : fiberStart c c (j - 1) = j - 1 :=
        fiberStart_self c hs (j - 1) (by omega)
      have hfs2 : fiberStart c c (j - 1 + 1) = j - 1 + 1 :=
        fiberStart_self c hs (j - 1 + 1) (by omega)
      rw [fiber_pct lo hi c c H (List.Sublist.refl c) (j - 1) (j - 1) hk
        (by rw [hfs1]) (by rw [hfs2]; omega)]
      have he1 : newLowEdge lo c (j - 1) = oldLowEdge lo c (j - 1 + 1) := by
        unfold newLowEdge oldLowEdge
        by_cases hz : j - 1 = 0
        · rw [if_pos hz, if_pos (by omega)]
        · rw [if_neg hz, if_neg (by omega)]
          congr 1
      have he2 : newHighEdge hi c (j - 1) = oldHighEdge hi c (j - 1 + 1) := by
        unfold newHighEdge oldHighEdge
        by_cases hz : c.length ≤ j - 1
        · rw [if_pos hz, if_pos (by omega)]
        · rw [if_neg hz, if_neg (by omega)]
          congr 1
      rw [← he1, ← he2]
      have hwidth := old_cell_width_pos lo hi c H (j - 1) hk
      rw [← he1, ← he2] at hwidth
      exact div_self (ne_of_gt (by linarith))

/-- Helper: harmonizing a tensor onto its own grid is the identity, for both
weight tensors and evidence-weighted score tensors. -/
theorem harmonize_tensor_self (lo hi : ℚ) (c : List ℚ) (t : List ℚ)
    (e : Option (List ℚ))
    (H : List.Sorted (· < ·) (lo :: (c ++ [hi])))
    (ht : t.length = c.length + 3) :
    harmonize_tensor lo hi lo hi c c identityMapping t e = t := by
  obtain ⟨hs, hgt, hlt, hlohi⟩ := chain_facts lo hi c H
  apply List.ext_getElem
  · simp [harmonize_tensor, ht]
  · intro j h1 h2
    simp only [harmonize_tensor, List.getElem_map, List.getElem_range]
    have hj : j < c.length + 3 := by omega
    rw [lookupFull_self c hs j hj, pctFull_self lo hi c H j hj]
    cases e with
    | none => rw [harmonizeCell_id, mul_one, List.getD_eq_getElem t 0 h2]
    | some ev => rw [harmonizeCell_id_score, List.getD_eq_getElem t 0 h2]

/-- Helper: the sorted deduplicated union of a strictly sorted list with
itself is the list back. -/
theorem sortedUnion_self (c : List ℚ) (hs : List.Sorted (· < ·) c) :
    List.insertionSort (· ≤ ·) ((c ++ c).dedup) = c := by
  have hnd : c.Nodup := hs.nodup
  have hperm : ((c ++ c).dedup).Perm c := by
    apply List.perm_of_nodup_nodup_toFinset_eq (List.nodup_dedup _) hnd
    ext x
    simp [List.mem_toFinset, List.mem_dedup, List.mem_append]
  exact List.eq_of_perm_of_sorted
    ((List.perm_insertionSort _ _).trans hperm)
    (List.sorted_insertionSort _ _)
    (hs.imp (fun h => le_of_lt h))

/-- Helper: the merged lower bound of equal bounds. -/
theorem mergeLo_self (a : ℚ) : mergeLo a a = a := by
  simp [mergeLo]

/-- Helper: the merged upper bound of equal bounds. -/
theorem mergeHi_self (a : ℚ) : mergeHi a a = a := by
  simp [mergeHi]

/-- Helper: a map that fixes every member is the identity on the list. -/
theorem map_eq_self_of_mem {α : Type} (l : List α) (f : α → α)
    (h : ∀ x ∈ l, f x = x) : l.map f = l := by
  induction l with
  | nil => rfl
  | cons a t ih =>
      rw [List.map_cons, h a (by simp), ih (fun x hx => h x (by simp [hx]))]

/-- Helper: adding a list to itself pointwise doubles it. -/
theorem zipWith_add_self (l : List ℚ) :
    List.zipWith (· + ·) l l = l.map (fun w => w * 2) := by
  induction l with
  | nil => rfl
  | cons a t ih =>
      rw [List.zipWith_cons_cons, List.map_cons, ih]
      congr 1
      ring

/-- Helper: every element of a replicated list equals its head. -/
theorem all_eq_headD_replicate (k : ℕ) (s : ℚ) :
    (List.replicate k s).all
      (fun x => decide (x = (List.replicate k s).headD 0)) = true := by
  rw [List.all_eq_true]
  intro x hx
  have hx2 : x = s := List.eq_of_mem_replicate hx
  cases k with
  | zero => simp at hx
  | succ k =>
      rw [List.replicate_succ, List.headD_cons, hx2]
      simp

/-- Helper: the branch on all-equal bag weights taken on a replicated list. -/
theorem if_all_replicate {α : Type} (n : ℕ) (s : ℚ) (x y : α) :
    (if (List.replicate n s).all
        (fun v => decide (v = (List.replicate n s).headD 0)) then x else y) = x :=
  if_pos (all_eq_headD_replicate n s)

/-- Helper: bag-averaging a duplicated bag list equals averaging the
original bags. -/
theorem avgTensors_doubling (l : List (List ℚ)) (len : ℕ) :
    avgTensors (l ++ l) len = avgTensors l len := by
  unfold avgTensors
  congr 1
  funext j
  rw [List.map_append, List.sum_append, List.length_append]
  have h2 : ((l.length + l.length : ℕ) : ℚ) = 2 * (l.length : ℚ) := by
    push_cast
    ring
  have h3 : (l.map fun t => t.getD j 0).sum + (l.map fun t => t.getD j 0).sum =
      2 * (l.map fun t => t.getD j 0).sum := by
    ring
  rw [h2, h3, mul_div_mul_left _ _ (two_ne_zero)]

/-- Helper: doubling every element doubles the sum. -/
theorem sum_map_double (l : List ℚ) :
    (l.map (fun x => x * 2)).sum = l.sum * 2 := by
  induction l with
  | nil => simp
  | cons a t ih =>
      rw [List.map_cons, List.sum_cons, List.sum_cons, ih]
      ring

/-- Helper: pointwise products against a doubled list. -/
theorem zipWith_mul_map_double (a w : List ℚ) :
    List.zipWith (· * ·) a (w.map (fun x => x * 2)) =
      (List.zipWith (· * ·) a w).map (fun x => x * 2) := by
  induction a generalizing w with
  | nil => simp
  | cons x xs ih =>
      cases w with
      | nil => rfl
      | cons y ys =>
          rw [List.map_cons, List.zipWith_cons_cons, List.zipWith_cons_cons,
            List.map_cons, ih]
          congr 1
          ring

/-- Helper: the bin-weighted mean is invariant under doubling the weights. -/
theorem weightedMean1_double (a w : List ℚ) :
    weightedMean1 a (w.map (fun x => x * 2)) = weightedMean1 a w := by
  unfold weightedMean1
  rw [zipWith_mul_map_double, sum_map_double, sum_map_double,
    mul_div_mul_right _ _ two_ne_zero]

/-- Helper: positional lookup through a map. -/
theorem getD_map_q (l : List ℚ) (f : ℚ → ℚ) (j : ℕ) (hj : j < l.length) :
    (l.map f).getD j 0 = f (l.getD j 0) := by
  rw [List.getD_eq_getElem _ _ (by simpa using hj), List.getD_eq_getElem _ _ hj]
  simp

/-- Helper: zero restoration is invariant under doubling the weights. -/
theorem restore1_map_double (t w : List ℚ) (hw : 0 < w.length) :
    restore1 t (w.map (fun x => x * 2)) = restore1 t w := by
  unfold restore1
  simp only [List.length_map, getD_map_q w (fun x => x * 2) 0 hw,
    getD_map_q w (fun x => x * 2) (w.length - 1) (by omega)]
  have h2 : ∀ q : ℚ, (q * 2 = 0) = (q = 0) :=
    fun q => propext ⟨fun h => by linarith, fun h => by rw [h]; ring⟩
  simp only [h2]

/-- C2 (amended): merging a single-feature continuous regression model with
itself (utils.py 517-934) keeps the cut array identical (no additional
bins), doubles the bin-weight tensor (both copies contribute), and returns
an additive term and intercept numerically equal to processing the model's
own bags alone (ebm.py 1006-1030), i.e. the model's own score tensor. -/
theorem merge_ebms_self_roundtrip (m : EBMModel)
    (H : List.Sorted (· < ·) (m.lo :: (m.cuts ++ [m.hi])))
    (hW : m.binW.length = m.cuts.length + 3)
    (hB : ∀ t ∈ m.bagged, t.length = m.cuts.length + 3)
    (hpos : 0 < m.binW.sum) :
    (merge_ebms_main m m).cuts = m.cuts ∧
    (merge_ebms_main m m).binW = m.binW.map (fun w => w * 2) ∧
    (merge_ebms_main m m).additive =
      (processTerm m.bagged m.binW (m.cuts.length + 3)).1 ∧
    (merge_ebms_main m m).intercept =
      (processTerm m.bagged m.binW (m.cuts.length + 3)).2 := by
  obtain ⟨hcs, hgt, hlt, hlohi⟩ := chain_facts m.lo m.hi m.cuts H
  have hcuts : List.insertionSort (· ≤ ·) ((m.cuts ++ m.cuts).dedup) = m.cuts :=
    sortedUnion_self m.cuts hcs
  have hwid : harmonize_tensor m.lo m.hi m.lo m.hi m.cuts m.cuts identityMapping
      m.binW none = m.binW :=
    harmonize_tensor_self m.lo m.hi m.cuts m.binW none H hW
  have hbag : m.bagged.map (fun t => harmonize_tensor m.lo m.hi m.lo m.hi m.cuts
      m.cuts identityMapping t (some m.binW)) = m.bagged :=
    map_eq_self_of_mem _ _ (fun t ht =>
      harmonize_tensor_self m.lo m.hi m.cuts t (some m.binW) H (hB t ht))
  have hlen0 : 0 < m.binW.length := by omega
  refine ⟨?_, ?_, ?_, ?_⟩
  · simp only [merge_ebms_main]
    exact hcuts
  · simp only [merge_ebms_main, mergeLo_self, mergeHi_self, hcuts, hwid]
    exact zipWith_add_self m.binW
  · simp only [merge_ebms_main, mergeLo_self, mergeHi_self, hcuts, hwid, hbag,
      zipWith_add_self, ← List.replicate_add, if_all_replicate,
      avgTensors_doubling, weightedMean1_double]
    rw [restore1_map_double _ m.binW hlen0]
    simp only [processTerm]
  · simp only [merge_ebms_main, mergeLo_self, mergeHi_self, hcuts, hwid, hbag,
      zipWith_add_self, ← List.replicate_add, if_all_replicate,
      avgTensors_doubling, weightedMean1_double]
    simp only [processTerm]

/-- Concrete run of the self-merge theorem on a two-bag model with bounds
0 and 3, cuts [1, 2], and positive bin weights. -/
theorem merge_ebms_self_roundtrip_witness :
    (merge_ebms_main exampleModel exampleModel).cuts = exampleModel.cuts ∧
    (merge_ebms_main exampleModel exampleModel).binW =
      exampleModel.binW.map (fun w => w * 2) ∧
    (merge_ebms_main exampleModel exampleModel).additive =
      (processTerm exampleModel.bagged exampleModel.binW
        (exampleModel.cuts.length + 3)).1 ∧
    (merge_ebms_main exampleModel exampleModel).intercept =
      (processTerm exampleModel.bagged exampleModel.binW
        (exampleModel.cuts.length + 3)).2 :=
  merge_ebms_self_roundtrip exampleModel
    (by norm_num [exampleModel, List.sorted_cons])
    rfl
    (by
      intro t ht
      simp only [exampleModel, List.mem_cons, List.not_mem_nil, or_false] at ht
      rcases ht with h | h <;> subst h <;> rfl)
    (by norm_num [exampleModel, List.sum_cons, List.sum_nil])

/-- C2 counterexample: the categorical bin merger (utils.py 663-674)
re-indexes category keys in sorted order, so self-merging a model with an
ordinal bin dictionary built from a non-alphabetical user ordering
(ebm.py 257; category labels coded by naturals in alphabetical order)
changes the bin structure: the ordinal map assigning bin 1 to the
alphabetically-larger category is replaced by the alphabetical map. -/
theorem merge_ebms_ordinal_counterexample :
    mergeCatBins (ordinalBins [1, 0]) (ordinalBins [1, 0]) ≠ ordinalBins [1, 0] := by
  decide

end EBM
